import Mathlib

/-!
Verification of the relationship-graph resolver of kube-lineage
(`internal/graph/graph.go`).

The Go source is shallowly embedded: Go maps become association lists with
in-place overwrite (`ains`) and first-match lookup (`alook`); the pointer
arena `globalMapByUID : map[types.UID]*Node` becomes a list of `Node`
records indexed by position (the position of the object in the input
slice), with the two global indices mapping keys to positions; mutation of
a node through a shared pointer becomes `modifyIdx` on the arena.  The
per-kind relationship extractors (`getPodRelationships`, ...) live outside
the embedded file and are modelled as an opaque parameter
`extract : Nat → Node → Option RelationshipMap` (the `switch` dispatch
composed with the extractor, `none` meaning "no extractor or extractor
error", exactly the cases where the Go code `continue`s without calling
`updateRelationships`).
-/

namespace KubeLineage

/-! ## Association-list machinery (Go `map` semantics) -/

/-- First-match lookup in an association list (Go `m[k]`, `ok` = `isSome`). -/
def alook {β : Type} : List (String × β) → String → Option β
  | [], _ => none
  | (k, v) :: rest, a => if k = a then some v else alook rest a

/-- In-place overwrite insert (Go `m[k] = v`). -/
def ains {β : Type} : List (String × β) → String → β → List (String × β)
  | [], k, v => [(k, v)]
  | (k', v') :: rest, k, v =>
      if k' = k then (k, v) :: rest else (k', v') :: ains rest k v

/-- The key list of an association list. -/
def mkeys {β : Type} (m : List (String × β)) : List String := m.map Prod.fst

/-- Positional lookup in a list (Go slice/pointer dereference). -/
def nth {α : Type} : List α → Nat → Option α
  | [], _ => none
  | a :: _, 0 => some a
  | _ :: l, i + 1 => nth l i

/-- Update the element at one position (mutation through a shared pointer). -/
def modifyIdx {α : Type} (f : α → α) : Nat → List α → List α
  | _, [] => []
  | 0, a :: l => f a :: l
  | i + 1, a :: l => a :: modifyIdx f i l

theorem alook_ains {β : Type} (m : List (String × β)) (k a : String) (v : β) :
    alook (ains m k v) a = if k = a then some v else alook m a := by
  induction m with
  | nil => rfl
  | cons p rest ih =>
      obtain ⟨k', v'⟩ := p
      by_cases h : k' = k
      · subst h
        by_cases h2 : k' = a <;> simp [ains, alook, h2]
      · by_cases h2 : k' = a
        · subst h2
          have hne : ¬ k = k' := fun hh => h hh.symm
          simp [ains, alook, h, hne]
        · simp [ains, alook, h, h2, ih]

theorem alook_eq_none_iff {β : Type} (m : List (String × β)) (a : String) :
    alook m a = none ↔ a ∉ mkeys m := by
  induction m with
  | nil => simp [alook, mkeys]
  | cons p rest ih =>
      obtain ⟨k, v⟩ := p
      by_cases h : k = a
      · subst h
        simp [alook, mkeys]
      · simp only [alook, if_neg h, ih, mkeys, List.map_cons, List.mem_cons]
        constructor
        · intro h1 h2
          rcases h2 with h2 | h2
          · exact h h2.symm
          · exact h1 h2
        · intro h1 h2
          exact h1 (Or.inr h2)

theorem mem_mkeys_iff_alook {β : Type} (m : List (String × β)) (a : String) :
    a ∈ mkeys m ↔ alook m a ≠ none := by
  rw [Ne, alook_eq_none_iff]
  tauto

theorem mem_mkeys_ains {β : Type} (m : List (String × β)) (k a : String) (v : β) :
    a ∈ mkeys (ains m k v) ↔ a = k ∨ a ∈ mkeys m := by
  rw [mem_mkeys_iff_alook, mem_mkeys_iff_alook, alook_ains]
  by_cases hk : k = a
  · simp [hk]
  · have hk2 : ¬ a = k := fun hh => hk hh.symm
    simp [hk, hk2]

theorem nodup_mkeys_ains {β : Type} (m : List (String × β)) (k : String) (v : β)
    (h : (mkeys m).Nodup) : (mkeys (ains m k v)).Nodup := by
  induction m with
  | nil => simp [ains, mkeys]
  | cons p rest ih =>
      obtain ⟨k', v'⟩ := p
      simp only [mkeys, List.map_cons, List.nodup_cons] at h
      by_cases hk : k' = k
      · subst hk
        simpa [ains, mkeys, List.nodup_cons] using h
      · have := ih h.2
        simp only [ains, if_neg hk, mkeys, List.map_cons, List.nodup_cons]
        refine ⟨?_, this⟩
        intro hmem
        rcases (mem_mkeys_ains rest k k' v).mp hmem with h1 | h1
        · exact hk h1
        · exact h.1 h1

theorem mem_ains {β : Type} {m : List (String × β)} {k : String} {v : β} {p : String × β}
    (h : p ∈ ains m k v) : p ∈ m ∨ p = (k, v) := by
  induction m with
  | nil => simpa [ains] using h
  | cons q rest ih =>
      obtain ⟨k', v'⟩ := q
      by_cases hk : k' = k
      · subst hk
        rcases (by simpa [ains] using h : p = (k', v) ∨ p ∈ rest) with h1 | h1
        · exact Or.inr h1
        · exact Or.inl (List.mem_cons_of_mem _ h1)
      · rcases (by simpa [ains, hk] using h : p = (k', v') ∨ p ∈ ains rest k v) with h1 | h1
        · exact Or.inl (by simp [h1])
        · rcases ih h1 with h2 | h2
          · exact Or.inl (List.mem_cons_of_mem _ h2)
          · exact Or.inr h2

theorem alook_mem {β : Type} {m : List (String × β)} {a : String} {v : β}
    (h : alook m a = some v) : (a, v) ∈ m := by
  induction m with
  | nil => simp [alook] at h
  | cons p rest ih =>
      obtain ⟨k, v'⟩ := p
      by_cases hk : k = a
      · subst hk
        simp [alook] at h
        simp [h]
      · simp [alook, hk] at h
        exact List.mem_cons_of_mem _ (ih h)

theorem mem_alook {β : Type} {m : List (String × β)} {a : String} {v : β}
    (hnd : (mkeys m).Nodup) (h : (a, v) ∈ m) : alook m a = some v := by
  induction m with
  | nil => simp at h
  | cons p rest ih =>
      obtain ⟨k, v'⟩ := p
      simp only [mkeys, List.map_cons, List.nodup_cons] at hnd
      rcases List.mem_cons.mp h with h1 | h1
      · injection h1 with h1a h1b
        subst h1a
        subst h1b
        simp [alook]
      · have hne : k ≠ a := by
          intro hk
          subst hk
          exact hnd.1 (List.mem_map_of_mem Prod.fst h1)
        simp [alook, hne, ih hnd.2 h1]

theorem alook_isSome_of_mem_mkeys {β : Type} {m : List (String × β)} {a : String}
    (h : a ∈ mkeys m) : ∃ v, alook m a = some v := by
  cases hv : alook m a with
  | none => exact absurd h ((alook_eq_none_iff m a).mp hv)
  | some v => exact ⟨v, rfl⟩

theorem mem_mkeys_of_mem {β : Type} {m : List (String × β)} {p : String × β}
    (h : p ∈ m) : p.1 ∈ mkeys m := List.mem_map_of_mem _ h

theorem nth_eq_some_iff {α : Type} (l : List α) (i : Nat) :
    (∃ a, nth l i = some a) ↔ i < l.length := by
  induction l generalizing i with
  | nil => simp [nth]
  | cons a l ih =>
      cases i with
      | zero => simp [nth]
      | succ j => simpa [nth, Nat.succ_lt_succ_iff] using ih j

theorem nth_mem {α : Type} {l : List α} {i : Nat} {a : α} (h : nth l i = some a) :
    a ∈ l := by
  induction l generalizing i with
  | nil => simp [nth] at h
  | cons b l ih =>
      cases i with
      | zero => simp [nth] at h; simp [h]
      | succ j => exact List.mem_cons_of_mem _ (ih (by simpa [nth] using h))

theorem nth_modifyIdx_self {α : Type} (f : α → α) (i : Nat) (l : List α) :
    nth (modifyIdx f i l) i = (nth l i).map f := by
  induction l generalizing i with
  | nil => simp [modifyIdx, nth]
  | cons a l ih =>
      cases i with
      | zero => simp [modifyIdx, nth]
      | succ j => simpa [modifyIdx, nth] using ih j

theorem nth_modifyIdx_ne {α : Type} (f : α → α) {i j : Nat} (l : List α) (h : i ≠ j) :
    nth (modifyIdx f i l) j = nth l j := by
  induction l generalizing i j with
  | nil => simp [modifyIdx]
  | cons a l ih =>
      cases i with
      | zero =>
          cases j with
          | zero => exact absurd rfl h
          | succ j' => simp [modifyIdx, nth]
      | succ i' =>
          cases j with
          | zero => simp [modifyIdx, nth]
          | succ j' => simpa [modifyIdx, nth] using ih (fun hh => h (by simp [hh]))

theorem length_modifyIdx {α : Type} (f : α → α) (i : Nat) (l : List α) :
    (modifyIdx f i l).length = l.length := by
  induction l generalizing i with
  | nil => cases i <;> rfl
  | cons a l ih =>
      cases i with
      | zero => simp [modifyIdx]
      | succ j => simpa [modifyIdx] using ih j

/-! ## Identity & addressing (`ObjectReference.Key`, `ObjectLabelSelector.Key`) -/

/-- `type ObjectReferenceKey string` -/
abbrev ObjectReferenceKey := String

/-- `type ObjectLabelSelectorKey string` -/
abbrev ObjectLabelSelectorKey := String

/-- `ObjectReference` of graph.go (Group, Kind, Namespace, Name). -/
structure ObjectReference where
  group : String
  kind : String
  ns : String
  name : String
deriving DecidableEq

/-- `func (o *ObjectReference) Key()`: `fmt.Sprintf("%s\\%s\\%s\\%s", Group, Kind, Namespace, Name)`
(in Go source text `\\` denotes a single backslash character). -/
def ObjectReference.Key (o : ObjectReference) : ObjectReferenceKey :=
  o.group ++ "\\" ++ o.kind ++ "\\" ++ o.ns ++ "\\" ++ o.name

/-- `ObjectLabelSelector` of graph.go.  The semantic selector
`labels.Selector` is modelled by its match function on a label map plus its
canonical string form (`Selector.String()`), which is what `Key` prints. -/
structure ObjectLabelSelector where
  group : String
  kind : String
  ns : String
  selMatches : List (String × String) → Bool
  selStr : String

/-- `func (o *ObjectLabelSelector) Key()`: same backslash-separated format,
with the stringified selector as last component. -/
def ObjectLabelSelector.Key (o : ObjectLabelSelector) : ObjectLabelSelectorKey :=
  o.group ++ "\\" ++ o.kind ++ "\\" ++ o.ns ++ "\\" ++ o.selStr

/-- A string free of the backslash separator used by the `Key` functions. -/
def NoSep (s : String) : Prop := ('\\' : Char) ∉ s.data

instance (s : String) : Decidable (NoSep s) := by
  unfold NoSep
  infer_instance

theorem string_data_app (s t : String) : (s ++ t).data = s.data ++ t.data := by
  cases s
  cases t
  rfl

theorem string_ext {s t : String} (h : s.data = t.data) : s = t := by
  cases s
  cases t
  exact congrArg String.mk h

/-- Splitting at the first occurrence of a separator character is unambiguous
when neither prefix contains the separator. -/
theorem append_sep_inj {c : Char} :
    ∀ {a b x y : List Char}, c ∉ a → c ∉ b → a ++ c :: x = b ++ c :: y →
      a = b ∧ x = y := by
  intro a
  induction a with
  | nil =>
      intro b x y _ hb h
      cases b with
      | nil => simpa using h
      | cons d b' =>
          simp only [List.nil_append, List.cons_append, List.cons.injEq] at h
          exact absurd (h.1 ▸ List.mem_cons_self d b') hb
  | cons d a' ih =>
      intro b x y ha hb h
      cases b with
      | nil =>
          simp only [List.cons_append, List.nil_append, List.cons.injEq] at h
          exact absurd (h.1 ▸ List.mem_cons_self d a') ha
      | cons e b' =>
          simp only [List.cons_append, List.cons.injEq] at h
          obtain ⟨he, h2⟩ := h
          have ha' : c ∉ a' := fun hm => ha (List.mem_cons_of_mem _ hm)
          have hb' : c ∉ b' := fun hm => hb (List.mem_cons_of_mem _ hm)
          obtain ⟨h3, h4⟩ := ih ha' hb' h2
          exact ⟨by simp [he, h3], h4⟩

theorem key4_inj {g k n m g' k' n' m' : String}
    (hg : NoSep g) (hk : NoSep k) (hn : NoSep n)
    (hg' : NoSep g') (hk' : NoSep k') (hn' : NoSep n')
    (h : g ++ "\\" ++ k ++ "\\" ++ n ++ "\\" ++ m =
         g' ++ "\\" ++ k' ++ "\\" ++ n' ++ "\\" ++ m') :
    g = g' ∧ k = k' ∧ n = n' ∧ m = m' := by
  have hd : g.data ++ '\\' :: (k.data ++ '\\' :: (n.data ++ '\\' :: m.data)) =
      g'.data ++ '\\' :: (k'.data ++ '\\' :: (n'.data ++ '\\' :: m'.data)) := by
    have := congrArg String.data h
    simpa [string_data_app, List.append_assoc] using this
  obtain ⟨h1, h2⟩ := append_sep_inj hg hg' hd
  obtain ⟨h3, h4⟩ := append_sep_inj hk hk' h2
  obtain ⟨h5, h6⟩ := append_sep_inj hn hn' h4
  exact ⟨string_ext h1, string_ext h3, string_ext h5, string_ext h6⟩

/-! ## Data model -/

/-- `types.UID` — an opaque string identifier. -/
abbrev UID := String

/-- `Relationship` — an opaque string label on an edge. -/
abbrev Rel := String

/-- `RelationshipOwnerRef` / `RelationshipControllerRef` constants. -/
def RelationshipOwnerRef : Rel := "OwnerRef"

def RelationshipControllerRef : Rel := "ControllerRef"

/-- One entry of `metav1.OwnerReference` as the resolver reads it:
the referenced UID and the optional `Controller` flag (`*bool`). -/
structure OwnerReference where
  uid : UID
  controller : Option Bool
deriving DecidableEq

/-- The fields of an `unstructured.Unstructured` input object that the
resolver core reads: UID, group/kind, namespace, name, labels, and the
owner-reference list. -/
structure K8sObject where
  uid : UID
  group : String
  kind : String
  ns : String
  name : String
  labels : List (String × String)
  ownerReferences : List OwnerReference
deriving DecidableEq

/-- A `RelationshipSet` (Go `map[Relationship]struct{}`) as an
insertion-ordered duplicate-free list; `insertRel` is `s[r] = struct{}{}`. -/
def insertRel (s : List Rel) (r : Rel) : List Rel :=
  if r ∈ s then s else s ++ [r]

/-- `Node` of graph.go: the denormalized object fields plus the
`Dependents` adjacency (`map[types.UID]RelationshipSet`). -/
structure Node where
  uid : UID
  group : String
  kind : String
  ns : String
  name : String
  labels : List (String × String)
  ownerReferences : List OwnerReference
  dependents : List (UID × List Rel)
deriving DecidableEq

/-- `func (n *Node) AddDependent(uid, r)` on the adjacency map. -/
def addDependent (d : List (UID × List Rel)) (u : UID) (r : Rel) : List (UID × List Rel) :=
  match d with
  | [] => [(u, [r])]
  | (k, s) :: rest =>
      if k = u then (k, insertRel s r) :: rest else (k, s) :: addDependent rest u r

/-- The object-derived (immutable) part of a `Node`; everything except the
mutable `Dependents` map. -/
def nodeCore (n : Node) : K8sObject :=
  ⟨n.uid, n.group, n.kind, n.ns, n.name, n.labels, n.ownerReferences⟩

/-- Node construction in the index-build loop of `ResolveDependents`. -/
def mkNode (o : K8sObject) : Node :=
  ⟨o.uid, o.group, o.kind, o.ns, o.name, o.labels, o.ownerReferences, []⟩

/-- `n.AddDependent(u, r)` performed on the node stored at arena position
`i` (Go mutates through the shared `*Node`). -/
def addDep (arena : List Node) (i : Nat) (u : UID) (r : Rel) : List Node :=
  modifyIdx (fun n => { n with dependents := addDependent n.dependents u r }) i arena

/-- The relationship set recorded on the node at arena position `j` for
dependent `u` (empty when absent). -/
def relsAt (arena : List Node) (j : Nat) (u : UID) : List Rel :=
  match nth arena j with
  | some n => (alook n.dependents u).getD []
  | none => []

/-- The dependent identifiers recorded on the node at arena position `j`. -/
def depKeysAt (arena : List Node) (j : Nat) : List UID :=
  match nth arena j with
  | some n => mkeys n.dependents
  | none => []

/-- `RelationshipMap` of graph.go (all seven Go maps as association lists). -/
structure RelationshipMap where
  dependenciesByLabelSelector : List (ObjectLabelSelectorKey × List Rel)
  dependenciesByRef : List (ObjectReferenceKey × List Rel)
  dependenciesByUID : List (UID × List Rel)
  dependentsByLabelSelector : List (ObjectLabelSelectorKey × List Rel)
  dependentsByRef : List (ObjectReferenceKey × List Rel)
  dependentsByUID : List (UID × List Rel)
  objectLabelSelectors : List (ObjectLabelSelectorKey × ObjectLabelSelector)

/-- `node.GetObjectReferenceKey()` for an input object. -/
def K8sObject.refKey (o : K8sObject) : ObjectReferenceKey :=
  ObjectReference.Key ⟨o.group, o.kind, o.ns, o.name⟩

/-! ## Global index build

The Go loop (graph.go lines 216-244) creates one `Node` per object and
inserts it into `globalMapByUID` under its UID, and — for objects with
empty group and kind `"Node"` — also under the node name and under the
`kubernetes.io/hostname` label value.  All inserts of one iteration store
the same `*Node`, so the per-object key set is: -/

/-- The extra `globalMapByUID` keys (aliases) registered for one object:
name and hostname-label for empty-group `"Node"` objects, nothing else. -/
def aliasKeys (o : K8sObject) : List String :=
  if o.group = "" ∧ o.kind = "Node" then
    o.name :: (match alook o.labels "kubernetes.io/hostname" with
      | some h => [h]
      | none => [])
  else []

/-- All `globalMapByUID` keys contributed by one object. -/
def keysOf (o : K8sObject) : List String := o.uid :: aliasKeys o

/-- All identifiers (UIDs and aliases) of an input collection. -/
def allUIDKeys (objects : List K8sObject) : List String :=
  objects.flatMap keysOf

/-- Insert all `globalMapByUID` keys of one object, each mapping to the
object's arena position `ix` (Go stores the same `*Node` under each). -/
def insertKeysOf (o : K8sObject) (ix : Nat) (m : List (String × Nat)) : List (String × Nat) :=
  (keysOf o).foldl (fun mm k => ains mm k ix) m

/-- The `globalMapByUID` index: key → arena position, built in input order. -/
def buildByUIDAux : List K8sObject → Nat → List (String × Nat) → List (String × Nat)
  | [], _, m => m
  | o :: rest, ix, m => buildByUIDAux rest (ix + 1) (insertKeysOf o ix m)

def buildByUID (objects : List K8sObject) : List (String × Nat) :=
  buildByUIDAux objects 0 []

/-- The `globalMapByKey` index: reference key → arena position. -/
def buildByKeyAux : List K8sObject → Nat → List (String × Nat) → List (String × Nat)
  | [], _, m => m
  | o :: rest, ix, m => buildByKeyAux rest (ix + 1) (ains m o.refKey ix)

def buildByKey (objects : List K8sObject) : List (String × Nat) :=
  buildByKeyAux objects 0 []

/-- The node arena: one `Node` per input object, in input order (the Go
loop allocates `node` per iteration and shares `&node` via the indices). -/
def buildArena (objects : List K8sObject) : List Node :=
  objects.map mkNode

/-! ## Owner-reference materializer (graph.go lines 306-316) -/

/-- Processing of one owner reference of the node `nodeUID`:
if the referenced UID resolves, add `ControllerRef` when the reference is
marked as controller, then add `OwnerRef`; otherwise do nothing. -/
def ownerRefStep (byUID : List (String × Nat)) (nodeUID : UID)
    (arena : List Node) (ref : OwnerReference) : List Node :=
  match alook byUID ref.uid with
  | some j =>
      let a := if ref.controller = some true then
        addDep arena j nodeUID RelationshipControllerRef else arena
      addDep a j nodeUID RelationshipOwnerRef
  | none => arena

/-- Processing of one `globalMapByUID` entry in the owner-reference loop
(`for _, node := range globalMapByUID`; alias entries revisit the same
node, which is harmless because the additions are idempotent). -/
def ownerEntryStep (byUID : List (String × Nat)) (arena : List Node)
    (entry : String × Nat) : List Node :=
  match nth arena entry.2 with
  | some node => node.ownerReferences.foldl (ownerRefStep byUID node.uid) arena
  | none => arena

/-- The whole owner-reference pass. -/
def ownerPass (byUID : List (String × Nat)) (arena : List Node) : List Node :=
  byUID.foldl (ownerEntryStep byUID) arena

/-! ## Relationship resolver (graph.go lines 246-304) -/

/-- `resolveSelectorToNodes`: scan `globalMapByUID` and keep the positions
of nodes matching the selector's group/kind/namespace and label predicate. -/
def resolveSelectorToNodes (byUID : List (String × Nat)) (arena : List Node)
    (o : ObjectLabelSelector) : List Nat :=
  byUID.filterMap (fun p =>
    match nth arena p.2 with
    | some n =>
        if n.group = o.group ∧ n.kind = o.kind ∧ n.ns = o.ns ∧ o.selMatches n.labels
        then some p.2 else none
    | none => none)

/-- Record every relationship of `rset` from dependent `u` on the node at
position `j` (the body of each inner `for r := range rset` loop). -/
def addRels (j : Nat) (u : UID) (rset : List Rel) (arena : List Node) : List Node :=
  rset.foldl (fun a r => addDep a j u r) arena

/-- The `DependenciesByRef` loop of `updateRelationships`: for each
reference key resolving via `globalMapByKey`, add the declaring node
(`nodeUID`) as a dependent of the referenced node — the reverse edge. -/
def depsByRefFold (byKey : List (String × Nat)) (nodeUID : UID)
    (l : List (ObjectReferenceKey × List Rel)) (arena : List Node) : List Node :=
  l.foldl (fun ar p =>
    match alook byKey p.1 with
    | some j => addRels j nodeUID p.2 ar
    | none => ar) arena

/-- The `DependentsByRef` loop: the referenced node becomes a dependent of
the declaring node (`nodeIx`) — the forward edge. -/
def deptsByRefFold (byKey : List (String × Nat)) (nodeIx : Nat)
    (l : List (ObjectReferenceKey × List Rel)) (arena : List Node) : List Node :=
  l.foldl (fun ar p =>
    match alook byKey p.1 with
    | some j =>
        match nth ar j with
        | some n => addRels nodeIx n.uid p.2 ar
        | none => ar
    | none => ar) arena

/-- The `DependenciesByLabelSelector` loop (reverse edges to every node
the stored selector matches). -/
def depsBySelFold (byUID : List (String × Nat))
    (olsMap : List (ObjectLabelSelectorKey × ObjectLabelSelector)) (nodeUID : UID)
    (l : List (ObjectLabelSelectorKey × List Rel)) (arena : List Node) : List Node :=
  l.foldl (fun ar p =>
    match alook olsMap p.1 with
    | some ols => (resolveSelectorToNodes byUID ar ols).foldl
        (fun ar2 j => addRels j nodeUID p.2 ar2) ar
    | none => ar) arena

/-- The `DependentsByLabelSelector` loop (forward edges from the declaring
node to every matched node). -/
def deptsBySelFold (byUID : List (String × Nat))
    (olsMap : List (ObjectLabelSelectorKey × ObjectLabelSelector)) (nodeIx : Nat)
    (l : List (ObjectLabelSelectorKey × List Rel)) (arena : List Node) : List Node :=
  l.foldl (fun ar p =>
    match alook olsMap p.1 with
    | some ols => (resolveSelectorToNodes byUID ar ols).foldl
        (fun ar2 j =>
          match nth ar2 j with
          | some n => addRels nodeIx n.uid p.2 ar2
          | none => ar2) ar
    | none => ar) arena

/-- The `DependenciesByUID` loop (reverse edges via `globalMapByUID`). -/
def depsByUIDFold (byUID : List (String × Nat)) (nodeUID : UID)
    (l : List (UID × List Rel)) (arena : List Node) : List Node :=
  l.foldl (fun ar p =>
    match alook byUID p.1 with
    | some j => addRels j nodeUID p.2 ar
    | none => ar) arena

/-- The `DependentsByUID` loop (forward edges via `globalMapByUID`). -/
def deptsByUIDFold (byUID : List (String × Nat)) (nodeIx : Nat)
    (l : List (UID × List Rel)) (arena : List Node) : List Node :=
  l.foldl (fun ar p =>
    match alook byUID p.1 with
    | some j =>
        match nth ar j with
        | some n => addRels nodeIx n.uid p.2 ar
        | none => ar
    | none => ar) arena

/-- `updateRelationships(node, rmap)`: merge one node's `RelationshipMap`
into the arena, running the six loops of graph.go lines 257-304 in source
order.  `nodeIx`/`nodeUID` identify the declaring node.  Dependency
declarations add the declaring node as a dependent of the referenced node
(reverse edge); dependent declarations add the referenced node as a
dependent of the declaring node (forward edge). -/
def updateRelationships (byUID byKey : List (String × Nat)) (nodeIx : Nat)
    (nodeUID : UID) (rmap : RelationshipMap) (arena : List Node) : List Node :=
  deptsByUIDFold byUID nodeIx rmap.dependentsByUID
    (depsByUIDFold byUID nodeUID rmap.dependenciesByUID
      (deptsBySelFold byUID rmap.objectLabelSelectors nodeIx rmap.dependentsByLabelSelector
        (depsBySelFold byUID rmap.objectLabelSelectors nodeUID rmap.dependenciesByLabelSelector
          (deptsByRefFold byKey nodeIx rmap.dependentsByRef
            (depsByRefFold byKey nodeUID rmap.dependenciesByRef arena)))))

/-- The extractor pass (graph.go lines 318-423): for every
`globalMapByUID` entry, dispatch the node to its per-kind extractor; a
produced `RelationshipMap` is merged, `none` (no extractor for the kind,
or extractor error) contributes nothing.  The dispatch-plus-extractor
composite is the opaque parameter `extract`. -/
def extractPass (extract : Nat → Node → Option RelationshipMap)
    (byUID byKey : List (String × Nat)) (arena : List Node) : List Node :=
  byUID.foldl (fun ar p =>
    match nth ar p.2 with
    | some node =>
        match extract p.2 node with
        | some rmap => updateRelationships byUID byKey p.2 node.uid rmap ar
        | none => ar
    | none => ar) arena

/-- The trivial extractor: no object contributes extracted relationships
(only owner references produce edges).  Models inputs whose kinds have no
extractor in the dispatch switch. -/
def noExtract : Nat → Node → Option RelationshipMap := fun _ _ => none

/-- The fully populated arena: indices built, owner-reference edges and
extracted relationships merged. -/
def finalArena (extract : Nat → Node → Option RelationshipMap)
    (objects : List K8sObject) : List Node :=
  extractPass extract (buildByUID objects) (buildByKey objects)
    (ownerPass (buildByUID objects) (buildArena objects))

/-! ## Dependent-set traversal (graph.go lines 425-457) -/

/-- The traversal state: the result map (`nodeMap`, values are arena
positions, `none` modelling a stored nil pointer), the pending queue and
the visited set. -/
structure BfsState where
  nodeMap : List (UID × Option Nat)
  queue : List UID
  visited : List UID

/-- One iteration of the traversal loop.  `none` = loop exit (empty
queue).  A visited head is discarded; otherwise the head is marked
visited, and if its `nodeMap` entry is a real node, its dependents are
copied into `nodeMap` (via `globalMapByUID`) and enqueued.  `π` is the Go
map iteration order over `node.Dependents` (an order-choice parameter;
the real program fixes no order). -/
def bfsStep (byUID : List (String × Nat)) (arena : List Node)
    (π : List UID → List UID) (st : BfsState) : Option BfsState :=
  match st.queue with
  | [] => none
  | uid :: rest =>
      if uid ∈ st.visited then some ⟨st.nodeMap, rest, st.visited⟩
      else
        match alook st.nodeMap uid with
        | some (some ix) =>
            match nth arena ix with
            | some node =>
                let deps := π (mkeys node.dependents)
                some ⟨deps.foldl (fun m d => ains m d (alook byUID d)) st.nodeMap,
                      rest ++ deps, uid :: st.visited⟩
            | none => some ⟨st.nodeMap, st.queue, uid :: st.visited⟩
        | _ => some ⟨st.nodeMap, st.queue, uid :: st.visited⟩

/-- Fuel-indexed iteration of `bfsStep`; `bfsFuel` below always suffices. -/
def bfsRun (byUID : List (String × Nat)) (arena : List Node)
    (π : List UID → List UID) : Nat → BfsState → List (UID × Option Nat)
  | 0, st => st.nodeMap
  | fuel + 1, st =>
      match bfsStep byUID arena π st with
      | none => st.nodeMap
      | some st' => bfsRun byUID arena π fuel st'

/-- Total number of dependent entries over the arena. -/
def totalDeps (arena : List Node) : Nat :=
  (arena.map (fun n => n.dependents.length)).sum

/-- Every identifier the traversal can ever enqueue. -/
def uidUniverse (arena : List Node) (root : UID) : List UID :=
  root :: arena.flatMap (fun n => mkeys n.dependents)

/-- A fuel bound that provably exceeds the loop's iteration count. -/
def bfsFuel (arena : List Node) (root : UID) : Nat :=
  (totalDeps arena + 1) * (uidUniverse arena root).dedup.length + 2

/-- `ResolveDependents`, with the dependent-iteration order `π` and the
extractor table `extract` as parameters.  Builds the indices and the
populated arena, then walks dependents from `rootUID`. -/
def resolveDependentsW (π : List UID → List UID)
    (extract : Nat → Node → Option RelationshipMap)
    (objects : List K8sObject) (rootUID : UID) : List (UID × Option Nat) :=
  match alook (buildByUID objects) rootUID with
  | some ix => bfsRun (buildByUID objects) (finalArena extract objects) π
      (bfsFuel (finalArena extract objects) rootUID)
      ⟨[(rootUID, some ix)], [rootUID], []⟩
  | none => []

/-- `ResolveDependents` with the identity iteration order. -/
def resolveDependents (extract : Nat → Node → Option RelationshipMap)
    (objects : List K8sObject) (rootUID : UID) : List (UID × Option Nat) :=
  resolveDependentsW id extract objects rootUID

/-- Transitive reachability along `Dependents` edges, starting from the
root, resolving identifiers through `globalMapByUID` exactly as the
traversal does. -/
inductive Reach (byUID : List (String × Nat)) (arena : List Node) (root : UID) : UID → Prop where
  | root : Reach byUID arena root root
  | step {u v : UID} {ix : Nat} {node : Node} :
      Reach byUID arena root u → alook byUID u = some ix →
      nth arena ix = some node → v ∈ mkeys node.dependents →
      Reach byUID arena root v

/-! ## Edge-addition lemmas -/

theorem mem_insertRel {s : List Rel} {r r' : Rel} :
    r ∈ insertRel s r' ↔ r ∈ s ∨ r = r' := by
  unfold insertRel
  by_cases h : r' ∈ s
  · simp only [if_pos h]
    constructor
    · exact Or.inl
    · rintro (h1 | h1)
      · exact h1
      · exact h1 ▸ h
  · simp [if_neg h]

theorem alook_addDependent (d : List (UID × List Rel)) (u u' : UID) (r' : Rel) :
    alook (addDependent d u' r') u =
      if u = u' then some (insertRel ((alook d u').getD []) r') else alook d u := by
  induction d with
  | nil =>
      by_cases h : u = u'
      · subst h
        simp [addDependent, alook, insertRel]
      · have h2 : ¬ u' = u := fun hh => h hh.symm
        simp [addDependent, alook, h, h2]
  | cons p rest ih =>
      obtain ⟨k, s⟩ := p
      by_cases hk : k = u'
      · subst hk
        by_cases hu : k = u
        · subst hu
          simp [addDependent, alook]
        · have hu2 : ¬ u = k := fun hh => hu hh.symm
          simp [addDependent, alook, hu, hu2]
      · by_cases hu : k = u
        · have huu : ¬ u = u' := fun hh => hk (hu.trans hh)
          simp [addDependent, alook, hk, hu, huu]
        · simp [addDependent, alook, hk, hu, ih]

theorem mem_relsOf_addDependent {d : List (UID × List Rel)} {u u' : UID} {r r' : Rel} :
    r ∈ (alook (addDependent d u' r') u).getD [] ↔
      r ∈ (alook d u).getD [] ∨ (u = u' ∧ r = r') := by
  rw [alook_addDependent]
  by_cases h : u = u'
  · subst h
    simp [mem_insertRel]
  · simp [h]

theorem mem_mkeys_addDependent {d : List (UID × List Rel)} {u u' : UID} {r' : Rel} :
    u ∈ mkeys (addDependent d u' r') ↔ u = u' ∨ u ∈ mkeys d := by
  rw [mem_mkeys_iff_alook, mem_mkeys_iff_alook, alook_addDependent]
  by_cases h : u = u'
  · simp [h]
  · simp [h]

theorem length_addDep (arena : List Node) (i : Nat) (u : UID) (r : Rel) :
    (addDep arena i u r).length = arena.length :=
  length_modifyIdx _ _ _

theorem nodeCore_addDep (arena : List Node) (i : Nat) (u : UID) (r : Rel) (j : Nat) :
    (nth (addDep arena i u r) j).map nodeCore = (nth arena j).map nodeCore := by
  by_cases h : i = j
  · subst h
    rw [addDep, nth_modifyIdx_self]
    cases nth arena i <;> simp [nodeCore]
  · rw [addDep, nth_modifyIdx_ne _ _ h]

theorem relsAt_eq (arena : List Node) (j : Nat) (u : UID) :
    relsAt arena j u = ((nth arena j).map (fun n => (alook n.dependents u).getD [])).getD [] := by
  unfold relsAt
  cases nth arena j <;> rfl

theorem depKeysAt_eq (arena : List Node) (j : Nat) :
    depKeysAt arena j = ((nth arena j).map (fun n => mkeys n.dependents)).getD [] := by
  unfold depKeysAt
  cases nth arena j <;> rfl

theorem mem_relsAt_addDep {arena : List Node} {i j : Nat} {u u' : UID} {r r' : Rel} :
    r ∈ relsAt (addDep arena i u' r') j u ↔
      r ∈ relsAt arena j u ∨ (j = i ∧ i < arena.length ∧ u = u' ∧ r = r') := by
  by_cases h : i = j
  · subst h
    cases hn : nth arena i with
    | none =>
        have hnone : nth (addDep arena i u' r') i = none := by
          rw [addDep, nth_modifyIdx_self, hn]
          rfl
        have hge : ¬ i < arena.length := by
          intro hlt
          obtain ⟨a, ha⟩ := (nth_eq_some_iff arena i).mpr hlt
          rw [hn] at ha
          exact Option.noConfusion ha
        simp [relsAt_eq, hn, hnone, hge]
    | some n =>
        have hsome : nth (addDep arena i u' r') i =
            some { n with dependents := addDependent n.dependents u' r' } := by
          rw [addDep, nth_modifyIdx_self, hn]
          rfl
        have hlt : i < arena.length := (nth_eq_some_iff arena i).mp ⟨n, hn⟩
        have hL : relsAt (addDep arena i u' r') i u
            = (alook (addDependent n.dependents u' r') u).getD [] := by
          rw [relsAt_eq, hsome]
          rfl
        have hR : relsAt arena i u = (alook n.dependents u).getD [] := by
          rw [relsAt_eq, hn]
          rfl
        rw [hL, hR, mem_relsOf_addDependent]
        simp [hlt]
  · have heq : nth (addDep arena i u' r') j = nth arena j := by
      rw [addDep]
      exact nth_modifyIdx_ne _ _ h
    rw [relsAt_eq, relsAt_eq, heq]
    have hne : ¬ j = i := fun hh => h hh.symm
    simp [hne]

theorem mem_depKeysAt_addDep {arena : List Node} {i j : Nat} {u u' : UID} {r' : Rel}
    (h : u ∈ depKeysAt (addDep arena i u' r') j) :
    u ∈ depKeysAt arena j ∨ u = u' := by
  by_cases hij : i = j
  · subst hij
    cases hn : nth arena i with
    | none =>
        rw [depKeysAt_eq, addDep, nth_modifyIdx_self, hn] at h
        simp at h
    | some n =>
        have hsome : nth (addDep arena i u' r') i =
            some { n with dependents := addDependent n.dependents u' r' } := by
          rw [addDep, nth_modifyIdx_self, hn]
          rfl
        have hK : depKeysAt (addDep arena i u' r') i
            = mkeys (addDependent n.dependents u' r') := by
          rw [depKeysAt_eq, hsome]
          rfl
        rw [hK] at h
        rcases mem_mkeys_addDependent.mp h with h1 | h1
        · exact Or.inr h1
        · rw [depKeysAt_eq, hn]
          exact Or.inl h1
  · rw [depKeysAt_eq, addDep, nth_modifyIdx_ne _ _ hij] at h
    rw [depKeysAt_eq]
    exact Or.inl h

/-- `Grows a b`: `b` is `a` with possibly more recorded relationships, the
same length and the same immutable node fields. -/
def Grows (a b : List Node) : Prop :=
  (∀ j u r, r ∈ relsAt a j u → r ∈ relsAt b j u) ∧
  b.length = a.length ∧
  (∀ j, (nth b j).map nodeCore = (nth a j).map nodeCore)

theorem grows_refl (a : List Node) : Grows a a :=
  ⟨fun _ _ _ h => h, Eq.refl _, fun _ => Eq.refl _⟩

theorem grows_trans {a b c : List Node} (h1 : Grows a b) (h2 : Grows b c) : Grows a c :=
  ⟨fun j u r h => h2.1 j u r (h1.1 j u r h), h2.2.1.trans h1.2.1,
    fun j => (h2.2.2 j).trans (h1.2.2 j)⟩

theorem grows_addDep (arena : List Node) (i : Nat) (u : UID) (r : Rel) :
    Grows arena (addDep arena i u r) :=
  ⟨fun _ _ _ h => mem_relsAt_addDep.mpr (Or.inl h), length_addDep arena i u r,
    nodeCore_addDep arena i u r⟩

theorem foldl_rel {α β : Type} {R : α → α → Prop} (hrefl : ∀ a, R a a)
    (htrans : ∀ a b c, R a b → R b c → R a c) {step : α → β → α}
    (hstep : ∀ a b, R a (step a b)) : ∀ (l : List β) (a : α), R a (l.foldl step a) := by
  intro l
  induction l with
  | nil => intro a; exact hrefl a
  | cons b l ih =>
      intro a
      exact htrans _ _ _ (hstep a b) (ih (step a b))

theorem grows_addRels (j : Nat) (u : UID) (rset : List Rel) (arena : List Node) :
    Grows arena (addRels j u rset arena) :=
  foldl_rel grows_refl (fun _ _ _ => grows_trans)
    (fun a r => grows_addDep a j u r) rset arena

theorem mem_relsAt_addRels {j : Nat} {u : UID} {rset : List Rel} {arena : List Node}
    {r : Rel} (hr : r ∈ rset) (hj : j < arena.length) :
    r ∈ relsAt (addRels j u rset arena) j u := by
  induction rset generalizing arena with
  | nil => simp at hr
  | cons r0 rest ih =>
      rcases List.mem_cons.mp hr with h1 | h1
      · subst h1
        have hmem : r ∈ relsAt (addDep arena j u r) j u :=
          mem_relsAt_addDep.mpr (Or.inr ⟨rfl, hj, rfl, rfl⟩)
        exact (grows_addRels j u rest (addDep arena j u r)).1 j u r hmem
      · have hlen : j < (addDep arena j u r0).length := by
          rw [length_addDep]; exact hj
        exact ih h1 hlen

theorem grows_ownerRefStep (byUID : List (String × Nat)) (nodeUID : UID)
    (arena : List Node) (ref : OwnerReference) :
    Grows arena (ownerRefStep byUID nodeUID arena ref) := by
  unfold ownerRefStep
  cases alook byUID ref.uid with
  | none => exact grows_refl arena
  | some j =>
      by_cases hc : ref.controller = some true
      · simp only [if_pos hc]
        exact grows_trans (grows_addDep arena j nodeUID RelationshipControllerRef)
          (grows_addDep _ j nodeUID RelationshipOwnerRef)
      · simp only [if_neg hc]
        exact grows_addDep arena j nodeUID RelationshipOwnerRef

theorem grows_ownerEntryStep (byUID : List (String × Nat)) (arena : List Node)
    (entry : String × Nat) : Grows arena (ownerEntryStep byUID arena entry) := by
  unfold ownerEntryStep
  cases nth arena entry.2 with
  | none => exact grows_refl arena
  | some node =>
      exact foldl_rel grows_refl (fun _ _ _ => grows_trans)
        (fun a ref => grows_ownerRefStep byUID node.uid a ref) node.ownerReferences arena

theorem grows_ownerPass (byUID : List (String × Nat)) (arena : List Node) :
    Grows arena (ownerPass byUID arena) :=
  foldl_rel grows_refl (fun _ _ _ => grows_trans)
    (fun a e => grows_ownerEntryStep byUID a e) byUID arena

theorem grows_depsByRefFold (byKey : List (String × Nat)) (nodeUID : UID)
    (l : List (ObjectReferenceKey × List Rel)) (arena : List Node) :
    Grows arena (depsByRefFold byKey nodeUID l arena) := by
  unfold depsByRefFold
  refine foldl_rel grows_refl (fun _ _ _ => grows_trans) (fun a p => ?_) l arena
  cases alook byKey p.1 with
  | none => exact grows_refl a
  | some j => exact grows_addRels j nodeUID p.2 a

theorem grows_deptsByRefFold (byKey : List (String × Nat)) (nodeIx : Nat)
    (l : List (ObjectReferenceKey × List Rel)) (arena : List Node) :
    Grows arena (deptsByRefFold byKey nodeIx l arena) := by
  unfold deptsByRefFold
  refine foldl_rel grows_refl (fun _ _ _ => grows_trans) (fun a p => ?_) l arena
  cases alook byKey p.1 with
  | none => exact grows_refl a
  | some j =>
      show Grows a (match nth a j with
        | some n => addRels nodeIx n.uid p.2 a
        | none => a)
      cases nth a j with
      | none => exact grows_refl a
      | some n => exact grows_addRels nodeIx n.uid p.2 a

theorem grows_depsBySelFold (byUID : List (String × Nat))
    (olsMap : List (ObjectLabelSelectorKey × ObjectLabelSelector)) (nodeUID : UID)
    (l : List (ObjectLabelSelectorKey × List Rel)) (arena : List Node) :
    Grows arena (depsBySelFold byUID olsMap nodeUID l arena) := by
  unfold depsBySelFold
  refine foldl_rel grows_refl (fun _ _ _ => grows_trans) (fun a p => ?_) l arena
  cases alook olsMap p.1 with
  | none => exact grows_refl a
  | some ols =>
      exact foldl_rel grows_refl (fun _ _ _ => grows_trans)
        (fun a2 j => grows_addRels j nodeUID p.2 a2) _ a

theorem grows_deptsBySelFold (byUID : List (String × Nat))
    (olsMap : List (ObjectLabelSelectorKey × ObjectLabelSelector)) (nodeIx : Nat)
    (l : List (ObjectLabelSelectorKey × List Rel)) (arena : List Node) :
    Grows arena (deptsBySelFold byUID olsMap nodeIx l arena) := by
  unfold deptsBySelFold
  refine foldl_rel grows_refl (fun _ _ _ => grows_trans) (fun a p => ?_) l arena
  cases alook olsMap p.1 with
  | none => exact grows_refl a
  | some ols =>
      refine foldl_rel grows_refl (fun _ _ _ => grows_trans) (fun a2 j => ?_) _ a
      show Grows a2 (match nth a2 j with
        | some n => addRels nodeIx n.uid p.2 a2
        | none => a2)
      cases nth a2 j with
      | none => exact grows_refl a2
      | some n => exact grows_addRels nodeIx n.uid p.2 a2

theorem grows_depsByUIDFold (byUID : List (String × Nat)) (nodeUID : UID)
    (l : List (UID × List Rel)) (arena : List Node) :
    Grows arena (depsByUIDFold byUID nodeUID l arena) := by
  unfold depsByUIDFold
  refine foldl_rel grows_refl (fun _ _ _ => grows_trans) (fun a p => ?_) l arena
  cases alook byUID p.1 with
  | none => exact grows_refl a
  | some j => exact grows_addRels j nodeUID p.2 a

theorem grows_deptsByUIDFold (byUID : List (String × Nat)) (nodeIx : Nat)
    (l : List (UID × List Rel)) (arena : List Node) :
    Grows arena (deptsByUIDFold byUID nodeIx l arena) := by
  unfold deptsByUIDFold
  refine foldl_rel grows_refl (fun _ _ _ => grows_trans) (fun a p => ?_) l arena
  cases alook byUID p.1 with
  | none => exact grows_refl a
  | some j =>
      show Grows a (match nth a j with
        | some n => addRels nodeIx n.uid p.2 a
        | none => a)
      cases nth a j with
      | none => exact grows_refl a
      | some n => exact grows_addRels nodeIx n.uid p.2 a

theorem grows_updateRelationships (byUID byKey : List (String × Nat)) (nodeIx : Nat)
    (nodeUID : UID) (rmap : RelationshipMap) (arena : List Node) :
    Grows arena (updateRelationships byUID byKey nodeIx nodeUID rmap arena) := by
  unfold updateRelationships
  exact grows_trans (grows_depsByRefFold ..)
    (grows_trans (grows_deptsByRefFold ..)
      (grows_trans (grows_depsBySelFold ..)
        (grows_trans (grows_deptsBySelFold ..)
          (grows_trans (grows_depsByUIDFold ..) (grows_deptsByUIDFold ..)))))

theorem grows_extractPass (extract : Nat → Node → Option RelationshipMap)
    (byUID byKey : List (String × Nat)) (arena : List Node) :
    Grows arena (extractPass extract byUID byKey arena) := by
  unfold extractPass
  refine foldl_rel grows_refl (fun _ _ _ => grows_trans) (fun a p => ?_) byUID arena
  cases nth a p.2 with
  | none => exact grows_refl a
  | some node =>
      show Grows a (match extract p.2 node with
        | some rmap => updateRelationships byUID byKey p.2 node.uid rmap a
        | none => a)
      cases extract p.2 node with
      | none => exact grows_refl a
      | some rmap => exact grows_updateRelationships byUID byKey p.2 node.uid rmap a

/-! ## Core-field stability -/

/-- `CoreEq a b`: same length and same immutable node fields (the
dependents maps may differ). -/
def CoreEq (a b : List Node) : Prop :=
  b.length = a.length ∧ ∀ j, (nth b j).map nodeCore = (nth a j).map nodeCore

theorem coreEq_refl (a : List Node) : CoreEq a a := ⟨Eq.refl _, fun _ => Eq.refl _⟩

theorem coreEq_of_grows {a b : List Node} (h : Grows a b) : CoreEq a b := ⟨h.2.1, h.2.2⟩

theorem coreEq_trans {a b c : List Node} (h1 : CoreEq a b) (h2 : CoreEq b c) : CoreEq a c :=
  ⟨h2.1.trans h1.1, fun j => (h2.2 j).trans (h1.2 j)⟩

theorem coreEq_nth {a b : List Node} (h : CoreEq a b) {j : Nat} {n : Node}
    (hn : nth b j = some n) : ∃ n0, nth a j = some n0 ∧ nodeCore n0 = nodeCore n := by
  have h2 := h.2 j
  rw [hn] at h2
  cases ha : nth a j with
  | none =>
      rw [ha] at h2
      exact Option.noConfusion h2
  | some n0 =>
      rw [ha] at h2
      refine ⟨n0, rfl, ?_⟩
      simpa using h2.symm

theorem coreEq_nth_rev {a b : List Node} (h : CoreEq a b) {j : Nat} {n0 : Node}
    (hn : nth a j = some n0) : ∃ n, nth b j = some n ∧ nodeCore n = nodeCore n0 := by
  have h2 := h.2 j
  rw [hn] at h2
  cases hb : nth b j with
  | none =>
      rw [hb] at h2
      exact Option.noConfusion h2
  | some n =>
      rw [hb] at h2
      refine ⟨n, rfl, ?_⟩
      simpa using h2

theorem nodeCore_uid {n m : Node} (h : nodeCore n = nodeCore m) : n.uid = m.uid :=
  congrArg K8sObject.uid h

theorem nodeCore_group {n m : Node} (h : nodeCore n = nodeCore m) : n.group = m.group :=
  congrArg K8sObject.group h

theorem nodeCore_kind {n m : Node} (h : nodeCore n = nodeCore m) : n.kind = m.kind :=
  congrArg K8sObject.kind h

theorem nodeCore_ns {n m : Node} (h : nodeCore n = nodeCore m) : n.ns = m.ns :=
  congrArg K8sObject.ns h

theorem nodeCore_labels {n m : Node} (h : nodeCore n = nodeCore m) : n.labels = m.labels :=
  congrArg K8sObject.labels h

theorem nodeCore_ownerReferences {n m : Node} (h : nodeCore n = nodeCore m) :
    n.ownerReferences = m.ownerReferences :=
  congrArg K8sObject.ownerReferences h

theorem resolveSelectorToNodes_congr {a b : List Node} (byUID : List (String × Nat))
    (ols : ObjectLabelSelector) (h : CoreEq a b) :
    resolveSelectorToNodes byUID b ols = resolveSelectorToNodes byUID a ols := by
  unfold resolveSelectorToNodes
  induction byUID with
  | nil => rfl
  | cons p rest ih =>
      simp only [List.filterMap_cons]
      have harg : (match nth b p.2 with
          | some n =>
              if n.group = ols.group ∧ n.kind = ols.kind ∧ n.ns = ols.ns ∧ ols.selMatches n.labels
              then some p.2 else none
          | none => none) = (match nth a p.2 with
          | some n =>
              if n.group = ols.group ∧ n.kind = ols.kind ∧ n.ns = ols.ns ∧ ols.selMatches n.labels
              then some p.2 else none
          | none => none) := by
        cases hb : nth b p.2 with
        | none =>
            cases ha : nth a p.2 with
            | none => rfl
            | some n0 =>
                obtain ⟨n, hn, _⟩ := coreEq_nth_rev h ha
                rw [hn] at hb
                exact Option.noConfusion hb
        | some n =>
            obtain ⟨n0, ha, hc⟩ := coreEq_nth h hb
            rw [ha]
            show (if n.group = ols.group ∧ n.kind = ols.kind ∧ n.ns = ols.ns ∧
                    ols.selMatches n.labels then some p.2 else none)
              = (if n0.group = ols.group ∧ n0.kind = ols.kind ∧ n0.ns = ols.ns ∧
                    ols.selMatches n0.labels then some p.2 else none)
            rw [nodeCore_group hc, nodeCore_kind hc, nodeCore_ns hc, nodeCore_labels hc]
      rw [harg]
      cases (match nth a p.2 with
          | some n =>
              if n.group = ols.group ∧ n.kind = ols.kind ∧ n.ns = ols.ns ∧ ols.selMatches n.labels
              then some p.2 else none
          | none => none) with
      | none => exact ih
      | some j => rw [ih]

theorem mem_resolveSelectorToNodes {byUID : List (String × Nat)} {arena : List Node}
    {ols : ObjectLabelSelector} {j : Nat} (h : j ∈ resolveSelectorToNodes byUID arena ols) :
    j < arena.length := by
  unfold resolveSelectorToNodes at h
  obtain ⟨p, _, hp⟩ := List.mem_filterMap.mp h
  cases hn : nth arena p.2 with
  | none => rw [hn] at hp; exact Option.noConfusion hp
  | some n =>
      rw [hn] at hp
      have hp' : (if n.group = ols.group ∧ n.kind = ols.kind ∧ n.ns = ols.ns ∧
          ols.selMatches n.labels then some p.2 else none) = some j := hp
      split at hp'
      · have hpj : p.2 = j := by injection hp'
        subst hpj
        exact (nth_eq_some_iff arena p.2).mp ⟨n, hn⟩
      · exact Option.noConfusion hp'

/-! ## Owner-pass characterization -/

/-- The contribution condition of one index entry in the owner-reference
loop: the entry's node has an owner reference that resolves to `j`, the
recorded dependent is the entry node's UID, and the label is `OwnerRef`,
or `ControllerRef` for a controller reference. -/
def OwnerContrib (byUID : List (String × Nat)) (arena : List Node)
    (p : String × Nat) (j : Nat) (u : UID) (r : Rel) : Prop :=
  ∃ node, nth arena p.2 = some node ∧ u = node.uid ∧
    ∃ ref ∈ node.ownerReferences, alook byUID ref.uid = some j ∧ j < arena.length ∧
      (r = RelationshipOwnerRef ∨ (r = RelationshipControllerRef ∧ ref.controller = some true))

theorem ownerContrib_congr {arena0 arena : List Node} (byUID : List (String × Nat))
    (p : String × Nat) (j : Nat) (u : UID) (r : Rel) (h : CoreEq arena0 arena) :
    OwnerContrib byUID arena p j u r ↔ OwnerContrib byUID arena0 p j u r := by
  unfold OwnerContrib
  rw [h.1]
  constructor
  · rintro ⟨node, hn, hu, ref, href, hres, hlt, hlab⟩
    obtain ⟨n0, hn0, hc⟩ := coreEq_nth h hn
    exact ⟨n0, hn0, hu.trans (nodeCore_uid hc).symm,
      ref, (nodeCore_ownerReferences hc) ▸ href, hres, hlt, hlab⟩
  · rintro ⟨n0, hn0, hu, ref, href, hres, hlt, hlab⟩
    obtain ⟨node, hn, hc⟩ := coreEq_nth_rev h hn0
    exact ⟨node, hn, hu.trans (nodeCore_uid hc).symm,
      ref, (nodeCore_ownerReferences hc) ▸ href, hres, hlt, hlab⟩

theorem mem_relsAt_ownerRefStep_iff {byUID : List (String × Nat)} {nodeUID : UID}
    {arena : List Node} {ref : OwnerReference} {j : Nat} {u : UID} {r : Rel} :
    r ∈ relsAt (ownerRefStep byUID nodeUID arena ref) j u ↔
      r ∈ relsAt arena j u ∨
      (alook byUID ref.uid = some j ∧ j < arena.length ∧ u = nodeUID ∧
        (r = RelationshipOwnerRef ∨ (r = RelationshipControllerRef ∧ ref.controller = some true))) := by
  unfold ownerRefStep
  cases halook : alook byUID ref.uid with
  | none => simp
  | some j' =>
      by_cases hc : ref.controller = some true
      · simp only [if_pos hc]
        rw [mem_relsAt_addDep]
        rw [show (addDep arena j' nodeUID RelationshipControllerRef).length = arena.length
          from length_addDep ..]
        rw [mem_relsAt_addDep]
        constructor
        · rintro ((hbase | ⟨hj, hlt, hu, hr⟩) | ⟨hj, hlt, hu, hr⟩)
          · exact Or.inl hbase
          · exact Or.inr ⟨by rw [hj], hj ▸ hlt, hu, Or.inr ⟨hr, hc⟩⟩
          · exact Or.inr ⟨by rw [hj], hj ▸ hlt, hu, Or.inl hr⟩
        · rintro (hbase | ⟨hj, hlt, hu, (hr | ⟨hr, _⟩)⟩)
          · exact Or.inl (Or.inl hbase)
          · have hj' : j = j' := by
              injection hj with hj
              exact hj.symm
            exact Or.inr ⟨hj', hj' ▸ hlt, hu, hr⟩
          · have hj' : j = j' := by
              injection hj with hj
              exact hj.symm
            exact Or.inl (Or.inr ⟨hj', hj' ▸ hlt, hu, hr⟩)
      · simp only [if_neg hc]
        rw [mem_relsAt_addDep]
        constructor
        · rintro (hbase | ⟨hj, hlt, hu, hr⟩)
          · exact Or.inl hbase
          · exact Or.inr ⟨by rw [hj], hj ▸ hlt, hu, Or.inl hr⟩
        · rintro (hbase | ⟨hj, hlt, hu, (hr | ⟨_, hctl⟩)⟩)
          · exact Or.inl hbase
          · have hj' : j = j' := by
              injection hj with hj
              exact hj.symm
            exact Or.inr ⟨hj', hj' ▸ hlt, hu, hr⟩
          · exact absurd hctl hc

theorem mem_relsAt_ownerRefsFold_iff {byUID : List (String × Nat)} {nodeUID : UID} :
    ∀ (refs : List OwnerReference) (arena : List Node) {j : Nat} {u : UID} {r : Rel},
    r ∈ relsAt (refs.foldl (ownerRefStep byUID nodeUID) arena) j u ↔
      r ∈ relsAt arena j u ∨
      ∃ ref ∈ refs, alook byUID ref.uid = some j ∧ j < arena.length ∧ u = nodeUID ∧
        (r = RelationshipOwnerRef ∨ (r = RelationshipControllerRef ∧ ref.controller = some true)) := by
  intro refs
  induction refs with
  | nil =>
      intro arena j u r
      simp
  | cons ref0 rest ih =>
      intro arena j u r
      rw [List.foldl_cons, ih]
      have hlen : (ownerRefStep byUID nodeUID arena ref0).length = arena.length :=
        (grows_ownerRefStep byUID nodeUID arena ref0).2.1
      rw [hlen, mem_relsAt_ownerRefStep_iff]
      constructor
      · rintro ((hbase | ⟨hres, hlt, hu, hlab⟩) | ⟨ref, href, hres, hlt, hu, hlab⟩)
        · exact Or.inl hbase
        · exact Or.inr ⟨ref0, List.mem_cons_self .., hres, hlt, hu, hlab⟩
        · exact Or.inr ⟨ref, List.mem_cons_of_mem _ href, hres, hlt, hu, hlab⟩
      · rintro (hbase | ⟨ref, href, hres, hlt, hu, hlab⟩)
        · exact Or.inl (Or.inl hbase)
        · rcases List.mem_cons.mp href with h1 | h1
          · subst h1
            exact Or.inl (Or.inr ⟨hres, hlt, hu, hlab⟩)
          · exact Or.inr ⟨ref, h1, hres, hlt, hu, hlab⟩

theorem mem_relsAt_ownerEntryStep_iff {byUID : List (String × Nat)} {arena : List Node}
    {entry : String × Nat} {j : Nat} {u : UID} {r : Rel} :
    r ∈ relsAt (ownerEntryStep byUID arena entry) j u ↔
      r ∈ relsAt arena j u ∨ OwnerContrib byUID arena entry j u r := by
  unfold ownerEntryStep OwnerContrib
  cases hn : nth arena entry.2 with
  | none => simp
  | some node =>
      rw [mem_relsAt_ownerRefsFold_iff]
      constructor
      · rintro (hbase | ⟨ref, href, hres, hlt, hu, hlab⟩)
        · exact Or.inl hbase
        · exact Or.inr ⟨node, rfl, hu, ref, href, hres, hlt, hlab⟩
      · rintro (hbase | ⟨node', hn', hu, ref, href, hres, hlt, hlab⟩)
        · exact Or.inl hbase
        · have hne : node' = node := by
            injection hn' with hh
            exact hh.symm
          subst hne
          exact Or.inr ⟨ref, href, hres, hlt, hu, hlab⟩

theorem mem_relsAt_ownerEntriesFold_iff {byUID : List (String × Nat)} (arena0 : List Node) :
    ∀ (entries : List (String × Nat)) (arena : List Node), CoreEq arena0 arena →
    ∀ {j : Nat} {u : UID} {r : Rel},
    r ∈ relsAt (entries.foldl (ownerEntryStep byUID) arena) j u ↔
      r ∈ relsAt arena j u ∨ ∃ p ∈ entries, OwnerContrib byUID arena0 p j u r := by
  intro entries
  induction entries with
  | nil =>
      intro arena _ j u r
      simp
  | cons e rest ih =>
      intro arena hce j u r
      rw [List.foldl_cons]
      have hce' : CoreEq arena0 (ownerEntryStep byUID arena e) :=
        coreEq_trans hce (coreEq_of_grows (grows_ownerEntryStep byUID arena e))
      rw [ih _ hce', mem_relsAt_ownerEntryStep_iff]
      rw [ownerContrib_congr byUID e j u r hce]
      constructor
      · rintro ((hbase | hcon) | ⟨p, hp, hcon⟩)
        · exact Or.inl hbase
        · exact Or.inr ⟨e, List.mem_cons_self .., hcon⟩
        · exact Or.inr ⟨p, List.mem_cons_of_mem _ hp, hcon⟩
      · rintro (hbase | ⟨p, hp, hcon⟩)
        · exact Or.inl (Or.inl hbase)
        · rcases List.mem_cons.mp hp with h1 | h1
          · subst h1
            exact Or.inl (Or.inr hcon)
          · exact Or.inr ⟨p, h1, hcon⟩

/-- Full characterization of the edges recorded by the owner-reference
pass. -/
theorem mem_relsAt_ownerPass_iff {byUID : List (String × Nat)} {arena : List Node}
    {j : Nat} {u : UID} {r : Rel} :
    r ∈ relsAt (ownerPass byUID arena) j u ↔
      r ∈ relsAt arena j u ∨ ∃ p ∈ byUID, OwnerContrib byUID arena p j u r := by
  unfold ownerPass
  exact mem_relsAt_ownerEntriesFold_iff arena byUID arena (coreEq_refl arena)

/-! ## Index-build lemmas -/

theorem nth_of_mem {α : Type} {l : List α} {a : α} (h : a ∈ l) : ∃ i, nth l i = some a := by
  induction l with
  | nil => simp at h
  | cons b rest ih =>
      rcases List.mem_cons.mp h with h1 | h1
      · exact ⟨0, by simp [nth, h1]⟩
      · obtain ⟨i, hi⟩ := ih h1
        exact ⟨i + 1, by simpa [nth] using hi⟩

theorem mem_allUIDKeys_iff {objects : List K8sObject} {a : String} :
    a ∈ allUIDKeys objects ↔ ∃ o ∈ objects, a ∈ keysOf o := by
  unfold allUIDKeys
  simp [List.mem_flatMap]

theorem alook_foldl_ains (ks : List String) (ix : Nat) :
    ∀ (m : List (String × Nat)) (a : String),
    alook (ks.foldl (fun mm k => ains mm k ix) m) a = if a ∈ ks then some ix else alook m a := by
  induction ks with
  | nil => intro m a; simp
  | cons k rest ih =>
      intro m a
      rw [List.foldl_cons, ih]
      by_cases hr : a ∈ rest
      · simp [hr]
      · by_cases hk : k = a
        · simp [hr, hk, alook_ains]
        · have hk2 : ¬ a = k := fun hh => hk hh.symm
          simp [hr, hk, hk2, alook_ains]

theorem alook_insertKeysOf (o : K8sObject) (ix : Nat) (m : List (String × Nat)) (a : String) :
    alook (insertKeysOf o ix m) a = if a ∈ keysOf o then some ix else alook m a :=
  alook_foldl_ains (keysOf o) ix m a

theorem alook_buildByUIDAux_of_not_mem :
    ∀ (objs : List K8sObject) (ix : Nat) (m : List (String × Nat)) (a : String),
    a ∉ allUIDKeys objs → alook (buildByUIDAux objs ix m) a = alook m a := by
  intro objs
  induction objs with
  | nil => intro ix m a _; rfl
  | cons o rest ih =>
      intro ix m a ha
      have h1 : a ∉ keysOf o := by
        intro hmem
        exact ha (mem_allUIDKeys_iff.mpr ⟨o, List.mem_cons_self .., hmem⟩)
      have h2 : a ∉ allUIDKeys rest := by
        intro hmem
        obtain ⟨o', ho', hk⟩ := mem_allUIDKeys_iff.mp hmem
        exact ha (mem_allUIDKeys_iff.mpr ⟨o', List.mem_cons_of_mem _ ho', hk⟩)
      show alook (buildByUIDAux rest (ix + 1) (insertKeysOf o ix m)) a = alook m a
      rw [ih (ix + 1) _ a h2, alook_insertKeysOf, if_neg h1]

theorem alook_buildByUIDAux_pos :
    ∀ (objs : List K8sObject) (ix0 : Nat) (m : List (String × Nat)) (i : Nat)
      (o : K8sObject) (a : String),
    nth objs i = some o → a ∈ keysOf o →
    (∀ j o', i < j → nth objs j = some o' → a ∉ keysOf o') →
    alook (buildByUIDAux objs ix0 m) a = some (ix0 + i) := by
  intro objs
  induction objs with
  | nil => intro ix0 m i o a h; simp [nth] at h
  | cons o0 rest ih =>
      intro ix0 m i o a hni hmem hlater
      cases i with
      | zero =>
          have ho : o = o0 := by
            injection hni with hh
            exact hh.symm
          subst ho
          have hnrest : a ∉ allUIDKeys rest := by
            intro hmem2
            obtain ⟨o', ho', hk⟩ := mem_allUIDKeys_iff.mp hmem2
            obtain ⟨j', hj'⟩ := nth_of_mem ho'
            exact hlater (j' + 1) o' (Nat.succ_pos j') (by simpa [nth] using hj') hk
          show alook (buildByUIDAux rest (ix0 + 1) (insertKeysOf o ix0 m)) a = some (ix0 + 0)
          rw [alook_buildByUIDAux_of_not_mem rest _ _ a hnrest, alook_insertKeysOf,
            if_pos hmem, Nat.add_zero]
      | succ i' =>
          have hni' : nth rest i' = some o := by simpa [nth] using hni
          have hlater' : ∀ j o', i' < j → nth rest j = some o' → a ∉ keysOf o' := by
            intro j o' hij hj
            exact hlater (j + 1) o' (Nat.succ_lt_succ hij) (by simpa [nth] using hj)
          show alook (buildByUIDAux rest (ix0 + 1) (insertKeysOf o0 ix0 m)) a
            = some (ix0 + (i' + 1))
          rw [ih (ix0 + 1) _ i' o a hni' hmem hlater']
          congr 1
          omega

theorem alook_buildByUIDAux_some :
    ∀ (objs : List K8sObject) (ix0 : Nat) (m : List (String × Nat)) (a : String) (v : Nat),
    alook (buildByUIDAux objs ix0 m) a = some v →
    alook m a = some v ∨ ∃ i o, nth objs i = some o ∧ a ∈ keysOf o ∧ v = ix0 + i := by
  intro objs
  induction objs with
  | nil => intro ix0 m a v h; exact Or.inl h
  | cons o0 rest ih =>
      intro ix0 m a v h
      rcases ih (ix0 + 1) (insertKeysOf o0 ix0 m) a v h with h1 | ⟨i, o, hni, hmem, hv⟩
      · rw [alook_insertKeysOf] at h1
        by_cases hmem : a ∈ keysOf o0
        · rw [if_pos hmem] at h1
          have hv : v = ix0 := by
            injection h1 with hh
            exact hh.symm
          exact Or.inr ⟨0, o0, by simp [nth], hmem, by omega⟩
        · rw [if_neg hmem] at h1
          exact Or.inl h1
      · exact Or.inr ⟨i + 1, o, by simpa [nth] using hni, hmem, by omega⟩

theorem mem_mkeys_buildByUIDAux :
    ∀ (objs : List K8sObject) (ix0 : Nat) (m : List (String × Nat)) (a : String),
    a ∈ mkeys (buildByUIDAux objs ix0 m) ↔ a ∈ mkeys m ∨ a ∈ allUIDKeys objs := by
  intro objs
  induction objs with
  | nil =>
      intro ix0 m a
      simp [buildByUIDAux, allUIDKeys]
  | cons o0 rest ih =>
      intro ix0 m a
      show a ∈ mkeys (buildByUIDAux rest (ix0 + 1) (insertKeysOf o0 ix0 m)) ↔ _
      rw [ih]
      have hik : a ∈ mkeys (insertKeysOf o0 ix0 m) ↔ a ∈ keysOf o0 ∨ a ∈ mkeys m := by
        rw [mem_mkeys_iff_alook, mem_mkeys_iff_alook, alook_insertKeysOf]
        by_cases hmem : a ∈ keysOf o0
        · simp [hmem]
        · simp [hmem]
      rw [hik]
      have : a ∈ allUIDKeys (o0 :: rest) ↔ a ∈ keysOf o0 ∨ a ∈ allUIDKeys rest := by
        unfold allUIDKeys
        simp [List.flatMap_cons]
      rw [this]
      tauto

theorem mem_mkeys_buildByUID {objects : List K8sObject} {a : String} :
    a ∈ mkeys (buildByUID objects) ↔ a ∈ allUIDKeys objects := by
  unfold buildByUID
  rw [mem_mkeys_buildByUIDAux]
  simp [mkeys]

theorem mem_foldl_ains_val (ks : List String) (ix : Nat) :
    ∀ (m : List (String × Nat)) (p : String × Nat),
    p ∈ ks.foldl (fun mm k => ains mm k ix) m → p ∈ m ∨ p.2 = ix := by
  induction ks with
  | nil => intro m p h; exact Or.inl h
  | cons k rest ih =>
      intro m p h
      rcases ih (ains m k ix) p h with h1 | h1
      · rcases mem_ains h1 with h2 | h2
        · exact Or.inl h2
        · exact Or.inr (by rw [h2])
      · exact Or.inr h1

theorem mem_buildByUIDAux_range :
    ∀ (objs : List K8sObject) (ix0 : Nat) (m : List (String × Nat)) (p : String × Nat),
    p ∈ buildByUIDAux objs ix0 m → p ∈ m ∨ (ix0 ≤ p.2 ∧ p.2 < ix0 + objs.length) := by
  intro objs
  induction objs with
  | nil => intro ix0 m p h; exact Or.inl h
  | cons o0 rest ih =>
      intro ix0 m p h
      rcases ih (ix0 + 1) (insertKeysOf o0 ix0 m) p h with h1 | h1
      · rcases mem_foldl_ains_val (keysOf o0) ix0 m p h1 with h2 | h2
        · exact Or.inl h2
        · exact Or.inr (by simp [h2, List.length_cons])
      · refine Or.inr ⟨by omega, ?_⟩
        simp [List.length_cons]
        omega

theorem buildByUID_val_lt {objects : List K8sObject} {p : String × Nat}
    (h : p ∈ buildByUID objects) : p.2 < objects.length := by
  rcases mem_buildByUIDAux_range objects 0 [] p h with h1 | h1
  · simp at h1
  · omega

theorem alook_buildByUID_lt {objects : List K8sObject} {a : String} {v : Nat}
    (h : alook (buildByUID objects) a = some v) : v < objects.length :=
  buildByUID_val_lt (alook_mem h)

theorem mem_buildByKeyAux_range :
    ∀ (objs : List K8sObject) (ix0 : Nat) (m : List (String × Nat)) (p : String × Nat),
    p ∈ buildByKeyAux objs ix0 m → p ∈ m ∨ (ix0 ≤ p.2 ∧ p.2 < ix0 + objs.length) := by
  intro objs
  induction objs with
  | nil => intro ix0 m p h; exact Or.inl h
  | cons o0 rest ih =>
      intro ix0 m p h
      rcases ih (ix0 + 1) (ains m o0.refKey ix0) p h with h1 | h1
      · rcases mem_ains h1 with h2 | h2
        · exact Or.inl h2
        · refine Or.inr ⟨by simp [h2], ?_⟩
          simp [h2, List.length_cons]
      · refine Or.inr ⟨by omega, ?_⟩
        simp [List.length_cons]
        omega

theorem alook_buildByKey_lt {objects : List K8sObject} {a : String} {v : Nat}
    (h : alook (buildByKey objects) a = some v) : v < objects.length := by
  rcases mem_buildByKeyAux_range objects 0 [] _ (alook_mem h) with h1 | h1
  · simp at h1
  · omega

theorem nodup_flatMap_disjoint :
    ∀ (objs : List K8sObject), (objs.flatMap keysOf).Nodup →
    ∀ {i j : Nat} {o o' : K8sObject} {a : String},
    nth objs i = some o → nth objs j = some o' → i ≠ j →
    a ∈ keysOf o → a ∉ keysOf o' := by
  intro objs
  induction objs with
  | nil => intro _ i j o o' a h; simp [nth] at h
  | cons o0 rest ih =>
      intro hnd i j o o' a hi hj hij hmem
      rw [List.flatMap_cons, List.nodup_append] at hnd
      obtain ⟨hnd1, hnd2, hdisj⟩ := hnd
      cases i with
      | zero =>
          have ho : o = o0 := by
            injection hi with hh
            exact hh.symm
          subst ho
          cases j with
          | zero => exact absurd rfl hij
          | succ j' =>
              intro hmem'
              have hj' : nth rest j' = some o' := by simpa [nth] using hj
              exact hdisj hmem (List.mem_flatMap.mpr ⟨o', nth_mem hj', hmem'⟩)
      | succ i' =>
          have hi' : nth rest i' = some o := by simpa [nth] using hi
          cases j with
          | zero =>
              have ho' : o' = o0 := by
                injection hj with hh
                exact hh.symm
              subst ho'
              intro hmem'
              exact hdisj hmem' (List.mem_flatMap.mpr ⟨o, nth_mem hi', hmem⟩)
          | succ j' =>
              have hj' : nth rest j' = some o' := by simpa [nth] using hj
              exact ih hnd2 hi' hj' (fun hh => hij (by rw [hh])) hmem

/-- Under pairwise-distinct identifiers-and-aliases, every key of an
object resolves in `globalMapByUID` to that object's position. -/
theorem alook_buildByUID_pos {objects : List K8sObject} {i : Nat} {o : K8sObject} {a : String}
    (hWF : (allUIDKeys objects).Nodup) (hi : nth objects i = some o) (ha : a ∈ keysOf o) :
    alook (buildByUID objects) a = some i := by
  unfold buildByUID
  have h := alook_buildByUIDAux_pos objects 0 [] i o a hi ha (fun j o' hij hj =>
    nodup_flatMap_disjoint objects hWF hi hj (fun hh => Nat.lt_irrefl i (hh ▸ hij)) ha)
  simpa using h

theorem foldl_const {α β : Type} {step : α → β → α} (h : ∀ a b, step a b = a) :
    ∀ (l : List β) (a : α), l.foldl step a = a := by
  intro l
  induction l with
  | nil => intro a; rfl
  | cons b rest ih =>
      intro a
      rw [List.foldl_cons, h a b, ih]

/-- With no extractor contributions the extractor pass is the identity. -/
theorem extractPass_noExtract (byUID byKey : List (String × Nat)) (arena : List Node) :
    extractPass noExtract byUID byKey arena = arena := by
  unfold extractPass noExtract
  exact foldl_const (fun a p => by cases nth a p.2 <;> rfl) byUID arena

/-! ## Dependent keys stay within the arena's UIDs -/

theorem nth_map {α γ : Type} (f : α → γ) (l : List α) (j : Nat) :
    nth (l.map f) j = (nth l j).map f := by
  induction l generalizing j with
  | nil => cases j <;> rfl
  | cons a rest ih =>
      cases j with
      | zero => rfl
      | succ j' => simpa [nth] using ih j'

/-- The UID fields of all arena nodes. -/
def arenaUIDs (arena : List Node) : List UID := arena.map Node.uid

/-- Every recorded dependent key lies in `univ`. -/
def DepsIn (arena : List Node) (univ : List UID) : Prop :=
  ∀ j u, u ∈ depKeysAt arena j → u ∈ univ

theorem nth_uid_mem_arenaUIDs {arena : List Node} {j : Nat} {node : Node}
    (h : nth arena j = some node) : node.uid ∈ arenaUIDs arena :=
  List.mem_map_of_mem Node.uid (nth_mem h)

theorem coreEq_uid_mem {arena0 a : List Node} {univ : List UID} (hce : CoreEq arena0 a)
    (huniv : ∀ u ∈ arenaUIDs arena0, u ∈ univ) {j : Nat} {node : Node}
    (h : nth a j = some node) : node.uid ∈ univ := by
  obtain ⟨n0, hn0, hc⟩ := coreEq_nth hce h
  have := nth_uid_mem_arenaUIDs hn0
  rw [nodeCore_uid hc] at this
  exact huniv _ this

theorem depsIn_addDep {arena : List Node} {univ : List UID} {i : Nat} {u' : UID} {r : Rel}
    (hd : DepsIn arena univ) (hu : u' ∈ univ) : DepsIn (addDep arena i u' r) univ := by
  intro j u hmem
  rcases mem_depKeysAt_addDep hmem with h1 | h1
  · exact hd j u h1
  · exact h1 ▸ hu

theorem depsIn_addRels {univ : List UID} {j : Nat} {u : UID} (hu : u ∈ univ) :
    ∀ (rset : List Rel) (arena : List Node), DepsIn arena univ →
    DepsIn (addRels j u rset arena) univ := by
  intro rset
  induction rset with
  | nil => intro arena hd; exact hd
  | cons r rest ih =>
      intro arena hd
      exact ih (addDep arena j u r) (depsIn_addDep hd hu)

/-- Combined invariant for the edge-recording folds. -/
def DepsInv (arena0 : List Node) (univ : List UID) (a : List Node) : Prop :=
  DepsIn a univ ∧ CoreEq arena0 a

theorem depsInv_addRels {arena0 : List Node} {univ : List UID} {j : Nat} {u : UID}
    (hu : u ∈ univ) (rset : List Rel) {arena : List Node}
    (h : DepsInv arena0 univ arena) : DepsInv arena0 univ (addRels j u rset arena) :=
  ⟨depsIn_addRels hu rset arena h.1,
    coreEq_trans h.2 (coreEq_of_grows (grows_addRels j u rset arena))⟩

theorem depsInv_ownerRefStep {arena0 : List Node} {univ : List UID}
    {byUID : List (String × Nat)} {nodeUID : UID} (hu : nodeUID ∈ univ)
    {arena : List Node} (h : DepsInv arena0 univ arena) (ref : OwnerReference) :
    DepsInv arena0 univ (ownerRefStep byUID nodeUID arena ref) := by
  have hce : CoreEq arena0 (ownerRefStep byUID nodeUID arena ref) :=
    coreEq_trans h.2 (coreEq_of_grows (grows_ownerRefStep byUID nodeUID arena ref))
  refine ⟨?_, hce⟩
  unfold ownerRefStep
  cases alook byUID ref.uid with
  | none => exact h.1
  | some j =>
      by_cases hc : ref.controller = some true
      · simp only [if_pos hc]
        exact depsIn_addDep (depsIn_addDep h.1 hu) hu
      · simp only [if_neg hc]
        exact depsIn_addDep h.1 hu

theorem depsInv_ownerEntryStep {arena0 : List Node} {univ : List UID}
    (huniv : ∀ u ∈ arenaUIDs arena0, u ∈ univ) (byUID : List (String × Nat))
    {arena : List Node} (h : DepsInv arena0 univ arena) (entry : String × Nat) :
    DepsInv arena0 univ (ownerEntryStep byUID arena entry) := by
  unfold ownerEntryStep
  cases hn : nth arena entry.2 with
  | none => exact h
  | some node =>
      have hu : node.uid ∈ univ := coreEq_uid_mem h.2 huniv hn
      have : ∀ (refs : List OwnerReference) (a : List Node), DepsInv arena0 univ a →
          DepsInv arena0 univ (refs.foldl (ownerRefStep byUID node.uid) a) := by
        intro refs
        induction refs with
        | nil => intro a ha; exact ha
        | cons ref rest ih =>
            intro a ha
            exact ih _ (depsInv_ownerRefStep hu ha ref)
      exact this node.ownerReferences arena h

theorem depsInv_ownerPass {arena0 : List Node} {univ : List UID}
    (huniv : ∀ u ∈ arenaUIDs arena0, u ∈ univ) (byUID : List (String × Nat))
    {arena : List Node} (h : DepsInv arena0 univ arena) :
    DepsInv arena0 univ (ownerPass byUID arena) := by
  unfold ownerPass
  have : ∀ (entries : List (String × Nat)) (a : List Node), DepsInv arena0 univ a →
      DepsInv arena0 univ (entries.foldl (ownerEntryStep byUID) a) := by
    intro entries
    induction entries with
    | nil => intro a ha; exact ha
    | cons e rest ih =>
        intro a ha
        exact ih _ (depsInv_ownerEntryStep huniv byUID ha e)
  exact this byUID arena h

theorem depsInv_depsByRefFold {arena0 : List Node} {univ : List UID}
    {byKey : List (String × Nat)} {nodeUID : UID} (hu : nodeUID ∈ univ)
    (l : List (ObjectReferenceKey × List Rel)) {arena : List Node}
    (h : DepsInv arena0 univ arena) :
    DepsInv arena0 univ (depsByRefFold byKey nodeUID l arena) := by
  unfold depsByRefFold
  induction l generalizing arena with
  | nil => exact h
  | cons p rest ih =>
      rw [List.foldl_cons]
      refine ih ?_
      cases alook byKey p.1 with
      | none => exact h
      | some j => exact depsInv_addRels hu p.2 h

theorem depsInv_deptsByRefFold {arena0 : List Node} {univ : List UID}
    {byKey : List (String × Nat)} {nodeIx : Nat}
    (huniv : ∀ u ∈ arenaUIDs arena0, u ∈ univ)
    (l : List (ObjectReferenceKey × List Rel)) {arena : List Node}
    (h : DepsInv arena0 univ arena) :
    DepsInv arena0 univ (deptsByRefFold byKey nodeIx l arena) := by
  unfold deptsByRefFold
  induction l generalizing arena with
  | nil => exact h
  | cons p rest ih =>
      rw [List.foldl_cons]
      refine ih ?_
      cases alook byKey p.1 with
      | none => exact h
      | some j =>
          show DepsInv arena0 univ (match nth arena j with
            | some n => addRels nodeIx n.uid p.2 arena
            | none => arena)
          cases hn : nth arena j with
          | none => exact h
          | some n => exact depsInv_addRels (coreEq_uid_mem h.2 huniv hn) p.2 h

theorem depsInv_depsBySelFold {arena0 : List Node} {univ : List UID}
    {byUID : List (String × Nat)}
    {olsMap : List (ObjectLabelSelectorKey × ObjectLabelSelector)} {nodeUID : UID}
    (hu : nodeUID ∈ univ) (l : List (ObjectLabelSelectorKey × List Rel))
    {arena : List Node} (h : DepsInv arena0 univ arena) :
    DepsInv arena0 univ (depsBySelFold byUID olsMap nodeUID l arena) := by
  unfold depsBySelFold
  induction l generalizing arena with
  | nil => exact h
  | cons p rest ih =>
      rw [List.foldl_cons]
      refine ih ?_
      cases alook olsMap p.1 with
      | none => exact h
      | some ols =>
          have : ∀ (js : List Nat) (a : List Node), DepsInv arena0 univ a →
              DepsInv arena0 univ (js.foldl (fun ar2 j => addRels j nodeUID p.2 ar2) a) := by
            intro js
            induction js with
            | nil => intro a ha; exact ha
            | cons j jrest ihj =>
                intro a ha
                exact ihj _ (depsInv_addRels hu p.2 ha)
          exact this _ arena h

theorem depsInv_deptsBySelFold {arena0 : List Node} {univ : List UID}
    {byUID : List (String × Nat)}
    {olsMap : List (ObjectLabelSelectorKey × ObjectLabelSelector)} {nodeIx : Nat}
    (huniv : ∀ u ∈ arenaUIDs arena0, u ∈ univ)
    (l : List (ObjectLabelSelectorKey × List Rel))
    {arena : List Node} (h : DepsInv arena0 univ arena) :
    DepsInv arena0 univ (deptsBySelFold byUID olsMap nodeIx l arena) := by
  unfold deptsBySelFold
  induction l generalizing arena with
  | nil => exact h
  | cons p rest ih =>
      rw [List.foldl_cons]
      refine ih ?_
      cases alook olsMap p.1 with
      | none => exact h
      | some ols =>
          have : ∀ (js : List Nat) (a : List Node), DepsInv arena0 univ a →
              DepsInv arena0 univ (js.foldl (fun ar2 j =>
                match nth ar2 j with
                | some n => addRels nodeIx n.uid p.2 ar2
                | none => ar2) a) := by
            intro js
            induction js with
            | nil => intro a ha; exact ha
            | cons j jrest ihj =>
                intro a ha
                refine ihj _ ?_
                show DepsInv arena0 univ (match nth a j with
                  | some n => addRels nodeIx n.uid p.2 a
                  | none => a)
                cases hn : nth a j with
                | none => exact ha
                | some n => exact depsInv_addRels (coreEq_uid_mem ha.2 huniv hn) p.2 ha
          exact this _ arena h

theorem depsInv_depsByUIDFold {arena0 : List Node} {univ : List UID}
    {byUID : List (String × Nat)} {nodeUID : UID} (hu : nodeUID ∈ univ)
    (l : List (UID × List Rel)) {arena : List Node}
    (h : DepsInv arena0 univ arena) :
    DepsInv arena0 univ (depsByUIDFold byUID nodeUID l arena) := by
  unfold depsByUIDFold
  induction l generalizing arena with
  | nil => exact h
  | cons p rest ih =>
      rw [List.foldl_cons]
      refine ih ?_
      cases alook byUID p.1 with
      | none => exact h
      | some j => exact depsInv_addRels hu p.2 h

theorem depsInv_deptsByUIDFold {arena0 : List Node} {univ : List UID}
    {byUID : List (String × Nat)} {nodeIx : Nat}
    (huniv : ∀ u ∈ arenaUIDs arena0, u ∈ univ)
    (l : List (UID × List Rel)) {arena : List Node}
    (h : DepsInv arena0 univ arena) :
    DepsInv arena0 univ (deptsByUIDFold byUID nodeIx l arena) := by
  unfold deptsByUIDFold
  induction l generalizing arena with
  | nil => exact h
  | cons p rest ih =>
      rw [List.foldl_cons]
      refine ih ?_
      cases alook byUID p.1 with
      | none => exact h
      | some j =>
          show DepsInv arena0 univ (match nth arena j with
            | some n => addRels nodeIx n.uid p.2 arena
            | none => arena)
          cases hn : nth arena j with
          | none => exact h
          | some n => exact depsInv_addRels (coreEq_uid_mem h.2 huniv hn) p.2 h

theorem depsInv_updateRelationships {arena0 : List Node} {univ : List UID}
    (huniv : ∀ u ∈ arenaUIDs arena0, u ∈ univ) (byUID byKey : List (String × Nat))
    (nodeIx : Nat) {nodeUID : UID} (hu : nodeUID ∈ univ) (rmap : RelationshipMap)
    {arena : List Node} (h : DepsInv arena0 univ arena) :
    DepsInv arena0 univ (updateRelationships byUID byKey nodeIx nodeUID rmap arena) := by
  unfold updateRelationships
  exact depsInv_deptsByUIDFold huniv _
    (depsInv_depsByUIDFold hu _
      (depsInv_deptsBySelFold huniv _
        (depsInv_depsBySelFold hu _
          (depsInv_deptsByRefFold huniv _
            (depsInv_depsByRefFold hu _ h)))))

theorem depsInv_extractPass {arena0 : List Node} {univ : List UID}
    (huniv : ∀ u ∈ arenaUIDs arena0, u ∈ univ)
    (extract : Nat → Node → Option RelationshipMap) (byUID byKey : List (String × Nat))
    {arena : List Node} (h : DepsInv arena0 univ arena) :
    DepsInv arena0 univ (extractPass extract byUID byKey arena) := by
  unfold extractPass
  have : ∀ (entries : List (String × Nat)) (a : List Node), DepsInv arena0 univ a →
      DepsInv arena0 univ (entries.foldl (fun ar p =>
        match nth ar p.2 with
        | some node =>
            match extract p.2 node with
            | some rmap => updateRelationships byUID byKey p.2 node.uid rmap ar
            | none => ar
        | none => ar) a) := by
    intro entries
    induction entries with
    | nil => intro a ha; exact ha
    | cons e rest ih =>
        intro a ha
        rw [List.foldl_cons]
        refine ih _ ?_
        cases hn : nth a e.2 with
        | none => exact ha
        | some node =>
            show DepsInv arena0 univ (match extract e.2 node with
              | some rmap => updateRelationships byUID byKey e.2 node.uid rmap a
              | none => a)
            cases extract e.2 node with
            | none => exact ha
            | some rmap =>
                exact depsInv_updateRelationships huniv byUID byKey e.2
                  (coreEq_uid_mem ha.2 huniv hn) rmap ha
  exact this byUID arena h

theorem arenaUIDs_buildArena (objects : List K8sObject) :
    arenaUIDs (buildArena objects) = objects.map K8sObject.uid := by
  unfold arenaUIDs buildArena
  rw [List.map_map]
  rfl

theorem depsIn_buildArena (objects : List K8sObject) (univ : List UID) :
    DepsIn (buildArena objects) univ := by
  intro j u hmem
  rw [depKeysAt_eq] at hmem
  unfold buildArena at hmem
  rw [nth_map] at hmem
  cases hn : nth objects j with
  | none => rw [hn] at hmem; simp at hmem
  | some o =>
      rw [hn] at hmem
      simp [mkNode, mkeys] at hmem

/-- Every dependent key recorded anywhere in the fully populated arena is
the UID of some input object. -/
theorem depsIn_finalArena (extract : Nat → Node → Option RelationshipMap)
    (objects : List K8sObject) :
    DepsIn (finalArena extract objects) (objects.map K8sObject.uid) := by
  have huniv : ∀ u ∈ arenaUIDs (buildArena objects), u ∈ objects.map K8sObject.uid := by
    intro u hu
    rwa [arenaUIDs_buildArena] at hu
  have h0 : DepsInv (buildArena objects) (objects.map K8sObject.uid) (buildArena objects) :=
    ⟨depsIn_buildArena objects _, coreEq_refl _⟩
  exact (depsInv_extractPass huniv extract _ _
    (depsInv_ownerPass huniv _ h0)).1

/-! ## Traversal invariants -/

theorem mkeys_bfsFold (byUID : List (String × Nat)) :
    ∀ (deps : List UID) (m : List (UID × Option Nat)) (a : UID),
    a ∈ mkeys (deps.foldl (fun m d => ains m d (alook byUID d)) m) ↔
      a ∈ mkeys m ∨ a ∈ deps := by
  intro deps
  induction deps with
  | nil => intro m a; simp
  | cons d rest ih =>
      intro m a
      rw [List.foldl_cons, ih, mem_mkeys_ains]
      constructor
      · rintro ((h | h) | h)
        · exact Or.inr (h ▸ List.mem_cons_self ..)
        · exact Or.inl h
        · exact Or.inr (List.mem_cons_of_mem _ h)
      · rintro (h | h)
        · exact Or.inl (Or.inr h)
        · rcases List.mem_cons.mp h with h1 | h1
          · exact Or.inl (Or.inl h1)
          · exact Or.inr h1

theorem nodup_bfsFold (byUID : List (String × Nat)) :
    ∀ (deps : List UID) (m : List (UID × Option Nat)),
    (mkeys m).Nodup → (mkeys (deps.foldl (fun m d => ains m d (alook byUID d)) m)).Nodup := by
  intro deps
  induction deps with
  | nil => intro m h; exact h
  | cons d rest ih =>
      intro m h
      exact ih _ (nodup_mkeys_ains m d _ h)

theorem mem_bfsFold (byUID : List (String × Nat)) :
    ∀ (deps : List UID) (m : List (UID × Option Nat)) (p : UID × Option Nat),
    p ∈ deps.foldl (fun m d => ains m d (alook byUID d)) m →
      p ∈ m ∨ (p.1 ∈ deps ∧ p.2 = alook byUID p.1) := by
  intro deps
  induction deps with
  | nil => intro m p h; exact Or.inl h
  | cons d rest ih =>
      intro m p h
      rcases ih _ p h with h1 | h1
      · rcases mem_ains h1 with h2 | h2
        · exact Or.inl h2
        · refine Or.inr ⟨?_, ?_⟩
          · rw [h2]
            exact List.mem_cons_self ..
          · rw [h2]
      · exact Or.inr ⟨List.mem_cons_of_mem _ h1.1, h1.2⟩

theorem mem_uidUniverse_of_dep {arena : List Node} {root : UID} {node : Node}
    (hnode : node ∈ arena) {d : UID} (hd : d ∈ mkeys node.dependents) :
    d ∈ uidUniverse arena root := by
  unfold uidUniverse
  exact List.mem_cons_of_mem _ (List.mem_flatMap.mpr ⟨node, hnode, hd⟩)

theorem depLen_le_totalDeps {arena : List Node} {node : Node} (h : node ∈ arena) :
    node.dependents.length ≤ totalDeps arena := by
  unfold totalDeps
  exact List.single_le_sum (fun x _ => Nat.zero_le x) _
    (List.mem_map_of_mem (fun n => n.dependents.length) h)

/-- The termination measure of the traversal loop. -/
def measureOf (arena : List Node) (root : UID) (st : BfsState) : Nat :=
  (totalDeps arena + 1) *
    ((uidUniverse arena root).toFinset \ st.visited.toFinset).card + st.queue.length

theorem card_sdiff_insert_lt {U V : Finset String} {u : String}
    (hu : u ∈ U) (hnv : u ∉ V) : (U \ insert u V).card < (U \ V).card := by
  have h1 : U \ insert u V = (U \ V).erase u := by
    ext a
    simp only [Finset.mem_sdiff, Finset.mem_erase, Finset.mem_insert]
    tauto
  rw [h1]
  exact Finset.card_erase_lt_of_mem (Finset.mem_sdiff.mpr ⟨hu, hnv⟩)

/-- The loop invariant of the dependent-set traversal. -/
structure BfsInv (byUID : List (String × Nat)) (arena : List Node) (root : UID)
    (st : BfsState) : Prop where
  queueU : ∀ u ∈ st.queue, u ∈ uidUniverse arena root
  nodupKeys : (mkeys st.nodeMap).Nodup
  mapSound : ∀ p ∈ st.nodeMap, Reach byUID arena root p.1 ∧ p.2 = alook byUID p.1
  queueKeys : ∀ u ∈ st.queue, u ∈ mkeys st.nodeMap
  keysCover : ∀ u ∈ mkeys st.nodeMap, u ∈ st.visited ∨ u ∈ st.queue
  visitedStep : ∀ u ∈ st.visited, ∀ ix node, alook byUID u = some ix →
    nth arena ix = some node → ∀ d ∈ mkeys node.dependents, d ∈ mkeys st.nodeMap
  rootMem : root ∈ mkeys st.nodeMap

theorem bfsStep_eq_nil {byUID : List (String × Nat)} {arena : List Node}
    {π : List UID → List UID} {nodeMap : List (UID × Option Nat)} {visited : List UID} :
    bfsStep byUID arena π ⟨nodeMap, [], visited⟩ = none := rfl

theorem bfsStep_eq_skip {byUID : List (String × Nat)} {arena : List Node}
    {π : List UID → List UID} {nodeMap : List (UID × Option Nat)}
    {visited : List UID} {uid : UID} {rest : List UID} (hv : uid ∈ visited) :
    bfsStep byUID arena π ⟨nodeMap, uid :: rest, visited⟩
      = some ⟨nodeMap, rest, visited⟩ := by
  unfold bfsStep
  simp only
  rw [if_pos hv]

theorem bfsStep_eq_absent {byUID : List (String × Nat)} {arena : List Node}
    {π : List UID → List UID} {nodeMap : List (UID × Option Nat)}
    {visited : List UID} {uid : UID} {rest : List UID} (hv : uid ∉ visited)
    (hm : alook nodeMap uid = none) :
    bfsStep byUID arena π ⟨nodeMap, uid :: rest, visited⟩
      = some ⟨nodeMap, uid :: rest, uid :: visited⟩ := by
  unfold bfsStep
  simp only
  rw [if_neg hv, hm]

theorem bfsStep_eq_nilptr {byUID : List (String × Nat)} {arena : List Node}
    {π : List UID → List UID} {nodeMap : List (UID × Option Nat)}
    {visited : List UID} {uid : UID} {rest : List UID} (hv : uid ∉ visited)
    (hm : alook nodeMap uid = some none) :
    bfsStep byUID arena π ⟨nodeMap, uid :: rest, visited⟩
      = some ⟨nodeMap, uid :: rest, uid :: visited⟩ := by
  unfold bfsStep
  simp only
  rw [if_neg hv, hm]

theorem bfsStep_eq_outOfRange {byUID : List (String × Nat)} {arena : List Node}
    {π : List UID → List UID} {nodeMap : List (UID × Option Nat)}
    {visited : List UID} {uid : UID} {rest : List UID} {ix : Nat} (hv : uid ∉ visited)
    (hm : alook nodeMap uid = some (some ix)) (hn : nth arena ix = none) :
    bfsStep byUID arena π ⟨nodeMap, uid :: rest, visited⟩
      = some ⟨nodeMap, uid :: rest, uid :: visited⟩ := by
  unfold bfsStep
  simp only
  rw [if_neg hv, hm]
  simp only
  rw [hn]

theorem bfsStep_eq_visit {byUID : List (String × Nat)} {arena : List Node}
    {π : List UID → List UID} {nodeMap : List (UID × Option Nat)}
    {visited : List UID} {uid : UID} {rest : List UID} {ix : Nat} {node : Node}
    (hv : uid ∉ visited) (hm : alook nodeMap uid = some (some ix))
    (hn : nth arena ix = some node) :
    bfsStep byUID arena π ⟨nodeMap, uid :: rest, visited⟩
      = some ⟨(π (mkeys node.dependents)).foldl (fun m d => ains m d (alook byUID d)) nodeMap,
              rest ++ π (mkeys node.dependents), uid :: visited⟩ := by
  unfold bfsStep
  simp only
  rw [if_neg hv, hm]
  simp only
  rw [hn]

theorem bfsStep_none {byUID : List (String × Nat)} {arena : List Node}
    {π : List UID → List UID} {st : BfsState}
    (h : bfsStep byUID arena π st = none) : st.queue = [] := by
  obtain ⟨nodeMap, queue, visited⟩ := st
  cases queue with
  | nil => rfl
  | cons uid rest =>
      exfalso
      by_cases hv : uid ∈ visited
      · rw [bfsStep_eq_skip hv] at h
        exact Option.noConfusion h
      · cases hm : alook nodeMap uid with
        | none =>
            rw [bfsStep_eq_absent hv hm] at h
            exact Option.noConfusion h
        | some v =>
            cases v with
            | none =>
                rw [bfsStep_eq_nilptr hv hm] at h
                exact Option.noConfusion h
            | some ix =>
                cases hn : nth arena ix with
                | none =>
                    rw [bfsStep_eq_outOfRange hv hm hn] at h
                    exact Option.noConfusion h
                | some node =>
                    rw [bfsStep_eq_visit hv hm hn] at h
                    exact Option.noConfusion h

theorem bfsStep_some_inv {byUID : List (String × Nat)} {arena : List Node} {root : UID}
    {π : List UID → List UID}
    (hπm : ∀ l u, u ∈ π l ↔ u ∈ l) (hπl : ∀ l, (π l).length = l.length)
    {st st' : BfsState} (hInv : BfsInv byUID arena root st)
    (hstep : bfsStep byUID arena π st = some st') :
    BfsInv byUID arena root st' ∧ measureOf arena root st' < measureOf arena root st := by
  obtain ⟨nodeMap, queue, visited⟩ := st
  cases queue with
  | nil =>
      rw [bfsStep_eq_nil] at hstep
      exact Option.noConfusion hstep
  | cons uid rest =>
      by_cases hv : uid ∈ visited
      · rw [bfsStep_eq_skip hv] at hstep
        injection hstep with hst
        subst hst
        refine ⟨⟨?_, hInv.nodupKeys, hInv.mapSound, ?_, ?_, hInv.visitedStep, hInv.rootMem⟩, ?_⟩
        · exact fun u hu => hInv.queueU u (List.mem_cons_of_mem _ hu)
        · exact fun u hu => hInv.queueKeys u (List.mem_cons_of_mem _ hu)
        · intro u hu
          rcases hInv.keysCover u hu with h | h
          · exact Or.inl h
          · rcases List.mem_cons.mp h with h1 | h1
            · exact Or.inl (h1 ▸ hv)
            · exact Or.inr h1
        · unfold measureOf
          simp only [List.length_cons]
          exact Nat.add_lt_add_left (Nat.lt_succ_self _) _
      · have huidU : uid ∈ (uidUniverse arena root).toFinset :=
          List.mem_toFinset.mpr (hInv.queueU uid (List.mem_cons_self ..))
        have hnvF : uid ∉ visited.toFinset := fun hh => hv (List.mem_toFinset.mp hh)
        have hcard : ((uidUniverse arena root).toFinset \ (uid :: visited).toFinset).card
            < ((uidUniverse arena root).toFinset \ visited.toFinset).card := by
          rw [List.toFinset_cons]
          exact card_sdiff_insert_lt huidU hnvF
        cases hm : alook nodeMap uid with
        | none =>
            exfalso
            have hk := hInv.queueKeys uid (List.mem_cons_self ..)
            obtain ⟨v, hv2⟩ := alook_isSome_of_mem_mkeys hk
            rw [hm] at hv2
            exact Option.noConfusion hv2
        | some v =>
            cases v with
            | none =>
                rw [bfsStep_eq_nilptr hv hm] at hstep
                injection hstep with hst
                subst hst
                refine ⟨⟨hInv.queueU, hInv.nodupKeys, hInv.mapSound, hInv.queueKeys,
                  ?_, ?_, hInv.rootMem⟩, ?_⟩
                · intro u hu
                  rcases hInv.keysCover u hu with h | h
                  · exact Or.inl (List.mem_cons_of_mem _ h)
                  · exact Or.inr h
                · intro u hu ix node hux hnx d hd
                  rcases List.mem_cons.mp hu with h1 | h1
                  · subst h1
                    have hp := hInv.mapSound (u, none) (alook_mem hm)
                    rw [← hp.2] at hux
                    exact Option.noConfusion hux
                  · exact hInv.visitedStep u h1 ix node hux hnx d hd
                · unfold measureOf
                  exact Nat.add_lt_add_right
                    (mul_lt_mul_of_pos_left hcard (Nat.succ_pos _)) _
            | some ix =>
                cases hn : nth arena ix with
                | none =>
                    rw [bfsStep_eq_outOfRange hv hm hn] at hstep
                    injection hstep with hst
                    subst hst
                    refine ⟨⟨hInv.queueU, hInv.nodupKeys, hInv.mapSound, hInv.queueKeys,
                      ?_, ?_, hInv.rootMem⟩, ?_⟩
                    · intro u hu
                      rcases hInv.keysCover u hu with h | h
                      · exact Or.inl (List.mem_cons_of_mem _ h)
                      · exact Or.inr h
                    · intro u hu ix' node' hux hnx d hd
                      rcases List.mem_cons.mp hu with h1 | h1
                      · subst h1
                        have hp := hInv.mapSound (u, some ix) (alook_mem hm)
                        rw [← hp.2] at hux
                        have hixx : ix = ix' := by
                          injection hux
                        rw [← hixx, hn] at hnx
                        exact Option.noConfusion hnx
                      · exact hInv.visitedStep u h1 ix' node' hux hnx d hd
                    · unfold measureOf
                      exact Nat.add_lt_add_right
                        (mul_lt_mul_of_pos_left hcard (Nat.succ_pos _)) _
                | some node =>
                    rw [bfsStep_eq_visit hv hm hn] at hstep
                    injection hstep with hst
                    subst hst
                    have hp := hInv.mapSound (uid, some ix) (alook_mem hm)
                    have hux : alook byUID uid = some ix := hp.2.symm
                    have hdepsU : ∀ d ∈ π (mkeys node.dependents),
                        d ∈ uidUniverse arena root := by
                      intro d hd
                      exact mem_uidUniverse_of_dep (nth_mem hn) ((hπm _ d).mp hd)
                    refine ⟨⟨?_, ?_, ?_, ?_, ?_, ?_, ?_⟩, ?_⟩
                    · intro u hu
                      rcases List.mem_append.mp hu with h1 | h1
                      · exact hInv.queueU u (List.mem_cons_of_mem _ h1)
                      · exact hdepsU u h1
                    · exact nodup_bfsFold byUID _ _ hInv.nodupKeys
                    · intro p hpm
                      rcases mem_bfsFold byUID _ _ p hpm with h1 | ⟨h1, h2⟩
                      · exact hInv.mapSound p h1
                      · refine ⟨?_, h2⟩
                        exact Reach.step hp.1 hux hn ((hπm _ p.1).mp h1)
                    · intro u hu
                      rcases List.mem_append.mp hu with h1 | h1
                      · exact (mkeys_bfsFold byUID _ _ u).mpr
                          (Or.inl (hInv.queueKeys u (List.mem_cons_of_mem _ h1)))
                      · exact (mkeys_bfsFold byUID _ _ u).mpr (Or.inr h1)
                    · intro u hu
                      rcases (mkeys_bfsFold byUID _ _ u).mp hu with h1 | h1
                      · rcases hInv.keysCover u h1 with h2 | h2
                        · exact Or.inl (List.mem_cons_of_mem _ h2)
                        · rcases List.mem_cons.mp h2 with h3 | h3
                          · exact Or.inl (h3 ▸ List.mem_cons_self ..)
                          · exact Or.inr (List.mem_append_left _ h3)
                      · exact Or.inr (List.mem_append_right _ h1)
                    · intro u hu ix' node' hux' hnx d hd
                      rcases List.mem_cons.mp hu with h1 | h1
                      · subst h1
                        rw [hux] at hux'
                        have hixx : ix = ix' := by
                          injection hux'
                        rw [← hixx, hn] at hnx
                        have hnode : node' = node := by
                          injection hnx with hh
                          exact hh.symm
                        subst hnode
                        exact (mkeys_bfsFold byUID _ _ d).mpr
                          (Or.inr ((hπm _ d).mpr hd))
                      · exact (mkeys_bfsFold byUID _ _ d).mpr
                          (Or.inl (hInv.visitedStep u h1 ix' node' hux' hnx d hd))
                    · exact (mkeys_bfsFold byUID _ _ root).mpr (Or.inl hInv.rootMem)
                    · unfold measureOf
                      have hdl : (π (mkeys node.dependents)).length ≤ totalDeps arena := by
                        rw [hπl, mkeys, List.length_map]
                        exact depLen_le_totalDeps (nth_mem hn)
                      have h1 : (totalDeps arena + 1) *
                          (((uidUniverse arena root).toFinset \
                            (uid :: visited).toFinset).card + 1) ≤
                          (totalDeps arena + 1) *
                          ((uidUniverse arena root).toFinset \ visited.toFinset).card :=
                        Nat.mul_le_mul_left _ (Nat.succ_le_of_lt hcard)
                      rw [Nat.mul_succ] at h1
                      simp only [List.length_append, List.length_cons]
                      omega

/-- With enough fuel the traversal reaches the empty queue and the result
map is exactly the reachable set, with values looked up in
`globalMapByUID`. -/
theorem bfsRun_post {byUID : List (String × Nat)} {arena : List Node} {root : UID}
    {π : List UID → List UID}
    (hπm : ∀ l u, u ∈ π l ↔ u ∈ l) (hπl : ∀ l, (π l).length = l.length) :
    ∀ (fuel : Nat) (st : BfsState), BfsInv byUID arena root st →
    measureOf arena root st < fuel →
    (mkeys (bfsRun byUID arena π fuel st)).Nodup ∧
    (∀ p ∈ bfsRun byUID arena π fuel st,
      Reach byUID arena root p.1 ∧ p.2 = alook byUID p.1) ∧
    (∀ u, Reach byUID arena root u → u ∈ mkeys (bfsRun byUID arena π fuel st)) := by
  intro fuel
  induction fuel with
  | zero =>
      intro st _ hmu
      exact absurd hmu (Nat.not_lt_zero _)
  | succ fuel ih =>
      intro st hInv hmu
      cases hs : bfsStep byUID arena π st with
      | none =>
          have hq := bfsStep_none hs
          have hrun0 : bfsRun byUID arena π (fuel + 1) st
              = match bfsStep byUID arena π st with
                | none => st.nodeMap
                | some st2 => bfsRun byUID arena π fuel st2 := rfl
          have hrun : bfsRun byUID arena π (fuel + 1) st = st.nodeMap := by
            rw [hrun0, hs]
          rw [hrun]
          refine ⟨hInv.nodupKeys, hInv.mapSound, ?_⟩
          intro u hr
          induction hr with
          | root => exact hInv.rootMem
          | step hr1 hux hnx hd ih2 =>
              rcases hInv.keysCover _ ih2 with hvis | hque
              · exact hInv.visitedStep _ hvis _ _ hux hnx _ hd
              · rw [hq] at hque
                simp at hque
      | some st' =>
          obtain ⟨hInv', hdec⟩ := bfsStep_some_inv hπm hπl hInv hs
          have hrun0 : bfsRun byUID arena π (fuel + 1) st
              = match bfsStep byUID arena π st with
                | none => st.nodeMap
                | some st2 => bfsRun byUID arena π fuel st2 := rfl
          have hrun : bfsRun byUID arena π (fuel + 1) st = bfsRun byUID arena π fuel st' := by
            rw [hrun0, hs]
          rw [hrun]
          exact ih st' hInv' (Nat.lt_of_lt_of_le hdec (Nat.lt_succ_iff.mp hmu))

theorem bfsInv_init {byUID : List (String × Nat)} (arena : List Node) {root : UID}
    {ix : Nat} (h : alook byUID root = some ix) :
    BfsInv byUID arena root ⟨[(root, some ix)], [root], []⟩ := by
  refine ⟨?_, ?_, ?_, ?_, ?_, ?_, ?_⟩
  · intro u hu
    have : u = root := by simpa using hu
    subst this
    exact List.mem_cons_self ..
  · simp [mkeys]
  · intro p hp
    have : p = (root, some ix) := by simpa using hp
    subst this
    exact ⟨Reach.root, h.symm⟩
  · intro u hu
    have : u = root := by simpa using hu
    subst this
    simp [mkeys]
  · intro u hu
    have : u = root := by simpa [mkeys] using hu
    subst this
    exact Or.inr (List.mem_cons_self ..)
  · intro u hu
    simp at hu
  · simp [mkeys]

theorem measure_init_lt {arena : List Node} {root : UID}
    (nodeMap : List (UID × Option Nat)) :
    measureOf arena root ⟨nodeMap, [root], []⟩ < bfsFuel arena root := by
  unfold measureOf bfsFuel
  have h1 : (([] : List UID)).toFinset = (∅ : Finset String) := rfl
  rw [h1, Finset.sdiff_empty, List.card_toFinset]
  simp

theorem resolveW_none {π : List UID → List UID}
    {extract : Nat → Node → Option RelationshipMap}
    {objects : List K8sObject} {root : UID}
    (h : alook (buildByUID objects) root = none) :
    resolveDependentsW π extract objects root = [] := by
  unfold resolveDependentsW
  rw [h]

theorem resolveW_post (π : List UID → List UID)
    (extract : Nat → Node → Option RelationshipMap)
    {objects : List K8sObject} {root : UID} {ix : Nat}
    (hπm : ∀ l u, u ∈ π l ↔ u ∈ l) (hπl : ∀ l, (π l).length = l.length)
    (h : alook (buildByUID objects) root = some ix) :
    (mkeys (resolveDependentsW π extract objects root)).Nodup ∧
    (∀ p ∈ resolveDependentsW π extract objects root,
      Reach (buildByUID objects) (finalArena extract objects) root p.1 ∧
        p.2 = alook (buildByUID objects) p.1) ∧
    (∀ u, Reach (buildByUID objects) (finalArena extract objects) root u →
      u ∈ mkeys (resolveDependentsW π extract objects root)) := by
  have hrw : resolveDependentsW π extract objects root
      = bfsRun (buildByUID objects) (finalArena extract objects) π
          (bfsFuel (finalArena extract objects) root)
          ⟨[(root, some ix)], [root], []⟩ := by
    unfold resolveDependentsW
    rw [h]
  rw [hrw]
  exact bfsRun_post hπm hπl _ _ (bfsInv_init _ h) (measure_init_lt _)

theorem resolveW_mem_iff {π : List UID → List UID}
    {extract : Nat → Node → Option RelationshipMap}
    {objects : List K8sObject} {root : UID} {ix : Nat}
    (hπm : ∀ l u, u ∈ π l ↔ u ∈ l) (hπl : ∀ l, (π l).length = l.length)
    (h : alook (buildByUID objects) root = some ix) (u : UID) :
    u ∈ mkeys (resolveDependentsW π extract objects root) ↔
      Reach (buildByUID objects) (finalArena extract objects) root u := by
  obtain ⟨_, hsound, hcompl⟩ := resolveW_post π extract hπm hπl h
  constructor
  · intro hu
    obtain ⟨v, hv⟩ := alook_isSome_of_mem_mkeys hu
    exact (hsound _ (alook_mem hv)).1
  · exact hcompl u

theorem resolveW_alook_of_reach {π : List UID → List UID}
    {extract : Nat → Node → Option RelationshipMap}
    {objects : List K8sObject} {root : UID} {ix : Nat}
    (hπm : ∀ l u, u ∈ π l ↔ u ∈ l) (hπl : ∀ l, (π l).length = l.length)
    (h : alook (buildByUID objects) root = some ix) {u : UID}
    (hr : Reach (buildByUID objects) (finalArena extract objects) root u) :
    alook (resolveDependentsW π extract objects root) u
      = some (alook (buildByUID objects) u) := by
  obtain ⟨_, hsound, hcompl⟩ := resolveW_post π extract hπm hπl h
  obtain ⟨v, hv⟩ := alook_isSome_of_mem_mkeys (hcompl u hr)
  have hveq : v = alook (buildByUID objects) u := (hsound _ (alook_mem hv)).2
  rw [hv, hveq]

theorem resolveW_alook_of_not_reach {π : List UID → List UID}
    {extract : Nat → Node → Option RelationshipMap}
    {objects : List K8sObject} {root : UID} {ix : Nat}
    (hπm : ∀ l u, u ∈ π l ↔ u ∈ l) (hπl : ∀ l, (π l).length = l.length)
    (h : alook (buildByUID objects) root = some ix) {u : UID}
    (hr : ¬ Reach (buildByUID objects) (finalArena extract objects) root u) :
    alook (resolveDependentsW π extract objects root) u = none := by
  obtain ⟨_, hsound, _⟩ := resolveW_post π extract hπm hπl h
  cases hv : alook (resolveDependentsW π extract objects root) u with
  | none => rfl
  | some v => exact absurd (hsound _ (alook_mem hv)).1 hr

theorem id_perm_mem : ∀ (l : List UID) (u : UID), u ∈ (id : List UID → List UID) l ↔ u ∈ l :=
  fun _ _ => Iff.rfl

theorem id_perm_len : ∀ l : List UID, ((id : List UID → List UID) l).length = l.length :=
  fun _ => rfl

/-! ## Shared helpers for the claim theorems -/

theorem mem_mkeys_of_rel {d : List (UID × List Rel)} {u : UID} {r : Rel}
    (h : r ∈ (alook d u).getD []) : u ∈ mkeys d := by
  cases hv : alook d u with
  | none =>
      rw [hv] at h
      simp at h
  | some s =>
      rw [mem_mkeys_iff_alook, hv]
      simp

theorem mem_depKeysAt_of_rel {arena : List Node} {j : Nat} {u : UID} {r : Rel}
    (h : r ∈ relsAt arena j u) : u ∈ depKeysAt arena j := by
  rw [relsAt_eq] at h
  rw [depKeysAt_eq]
  cases hn : nth arena j with
  | none =>
      rw [hn] at h
      simp at h
  | some n =>
      rw [hn] at h
      have h' : r ∈ (alook n.dependents u).getD [] := h
      exact (mem_mkeys_of_rel h' : u ∈ mkeys n.dependents)

theorem length_eq_filter_ne_succ :
    ∀ {l : List String} {a : String}, l.Nodup → a ∈ l →
    l.length = (l.filter (fun u => u ≠ a)).length + 1 := by
  intro l
  induction l with
  | nil =>
      intro a _ ha
      simp at ha
  | cons b rest ih =>
      intro a hnd ha
      rw [List.nodup_cons] at hnd
      rcases List.mem_cons.mp ha with h1 | h1
      · subst h1
        have hf : rest.filter (fun u => !decide (u = a)) = rest := by
          rw [List.filter_eq_self]
          intro u hu
          have hne : ¬ u = a := fun heq => hnd.1 (heq ▸ hu)
          simp [hne]
        simp [List.filter_cons, hf]
      · have hba : ¬ b = a := fun heq => hnd.1 (heq ▸ h1)
        have hstep := ih hnd.2 h1
        simp only [List.filter_cons, List.length_cons]
        rw [if_pos (by simpa using hba)]
        simp only [List.length_cons]
        omega

/-- The three-object end-to-end scenario of the spec: a Deployment, a
ReplicaSet owned (controller) by it, and a Pod owned (controller) by the
ReplicaSet. -/
def objD : K8sObject := ⟨"uid-d", "apps", "Deployment", "default", "D", [], []⟩

def objR : K8sObject := ⟨"uid-r", "apps", "ReplicaSet", "default", "R", [], [⟨"uid-d", some true⟩]⟩

def objP : K8sObject := ⟨"uid-p", "", "Pod", "default", "P", [], [⟨"uid-r", some true⟩]⟩

def demoObjects : List K8sObject := [objD, objR, objP]

/-! ## Claim C5 -/

/-- Claim C5 (corrected): the claim as stated quantifies over all
component strings, but the backslash separator can occur inside a
component, making two distinct references share a key.  Concrete
counterexample: `("a\b", "c", "d", "e")` and `("a", "b\c", "d", "e")`. -/
theorem key_c5_counterexample :
    ObjectReference.Key ⟨"a\\b", "c", "d", "e"⟩
      = ObjectReference.Key ⟨"a", "b\\c", "d", "e"⟩ ∧
    (⟨"a\\b", "c", "d", "e"⟩ : ObjectReference) ≠ ⟨"a", "b\\c", "d", "e"⟩ := by
  constructor
  · decide
  · decide

/-- Claim C5 (amended): if the group, kind and namespace components are
free of the backslash separator, then `ObjectReference.Key` results are
equal iff the references are component-wise equal, and likewise
`ObjectLabelSelector.Key` results (with the stringified selector as the
fourth component).  Both functions are total Lean functions by
construction (pure, no error cases). -/
theorem key_componentwise_c5 (o o' : ObjectReference) (p p' : ObjectLabelSelector)
    (h1 : NoSep o.group) (h2 : NoSep o.kind) (h3 : NoSep o.ns)
    (h1' : NoSep o'.group) (h2' : NoSep o'.kind) (h3' : NoSep o'.ns)
    (g1 : NoSep p.group) (g2 : NoSep p.kind) (g3 : NoSep p.ns)
    (g1' : NoSep p'.group) (g2' : NoSep p'.kind) (g3' : NoSep p'.ns) :
    (o.Key = o'.Key ↔
      (o.group = o'.group ∧ o.kind = o'.kind ∧ o.ns = o'.ns ∧ o.name = o'.name)) ∧
    (p.Key = p'.Key ↔
      (p.group = p'.group ∧ p.kind = p'.kind ∧ p.ns = p'.ns ∧ p.selStr = p'.selStr)) := by
  constructor
  · constructor
    · intro h
      exact key4_inj h1 h2 h3 h1' h2' h3' h
    · rintro ⟨e1, e2, e3, e4⟩
      unfold ObjectReference.Key
      rw [e1, e2, e3, e4]
  · constructor
    · intro h
      exact key4_inj g1 g2 g3 g1' g2' g3' h
    · rintro ⟨e1, e2, e3, e4⟩
      unfold ObjectLabelSelector.Key
      rw [e1, e2, e3, e4]

/-- Witness for C5 at concrete separator-free inputs. -/
theorem key_c5_witness :
    (NoSep "apps" ∧ NoSep "Deployment" ∧ NoSep "default" ∧ NoSep "" ∧ NoSep "Service") ∧
    ((ObjectReference.Key ⟨"apps", "Deployment", "default", "a"⟩
        = ObjectReference.Key ⟨"apps", "Deployment", "default", "b"⟩ ↔
      ("apps" = "apps" ∧ "Deployment" = "Deployment" ∧ "default" = "default" ∧ "a" = "b")) ∧
     (ObjectLabelSelector.Key ⟨"", "Service", "default", fun _ => true, "app=x"⟩
        = ObjectLabelSelector.Key ⟨"", "Service", "default", fun _ => true, "app=x"⟩ ↔
      ("" = "" ∧ "Service" = "Service" ∧ "default" = "default" ∧ "app=x" = "app=x"))) :=
  ⟨⟨by decide, by decide, by decide, by decide, by decide⟩,
    key_componentwise_c5 ⟨"apps", "Deployment", "default", "a"⟩
      ⟨"apps", "Deployment", "default", "b"⟩
      ⟨"", "Service", "default", fun _ => true, "app=x"⟩
      ⟨"", "Service", "default", fun _ => true, "app=x"⟩
      (by decide) (by decide) (by decide) (by decide) (by decide) (by decide)
      (by decide) (by decide) (by decide) (by decide) (by decide) (by decide)⟩

theorem finalArena_length (extract : Nat → Node → Option RelationshipMap)
    (objects : List K8sObject) :
    (finalArena extract objects).length = objects.length := by
  unfold finalArena
  rw [(grows_extractPass extract (buildByUID objects) (buildByKey objects) _).2.1,
    (grows_ownerPass (buildByUID objects) (buildArena objects)).2.1]
  unfold buildArena
  exact List.length_map ..

/-- Any identifier reachable from a resolvable root is an identifier (or
alias) of some input object. -/
theorem reach_mem_allUIDKeys {extract : Nat → Node → Option RelationshipMap}
    {objects : List K8sObject} {root u : UID}
    (hroot : root ∈ mkeys (buildByUID objects))
    (hr : Reach (buildByUID objects) (finalArena extract objects) root u) :
    u ∈ allUIDKeys objects := by
  induction hr with
  | root => exact mem_mkeys_buildByUID.mp hroot
  | @step u' v ix node h1 hux hnx hd ih =>
      have hdep : v ∈ depKeysAt (finalArena extract objects) ix := by
        rw [depKeysAt_eq, hnx]
        exact hd
      have hmap := depsIn_finalArena extract objects ix v hdep
      obtain ⟨o, ho, huid⟩ := List.mem_map.mp hmap
      exact mem_allUIDKeys_iff.mpr ⟨o, ho, huid ▸ List.mem_cons_self ..⟩

theorem reach_mem_mkeys_byUID {extract : Nat → Node → Option RelationshipMap}
    {objects : List K8sObject} {root u : UID}
    (hroot : root ∈ mkeys (buildByUID objects))
    (hr : Reach (buildByUID objects) (finalArena extract objects) root u) :
    u ∈ mkeys (buildByUID objects) :=
  mem_mkeys_buildByUID.mpr (reach_mem_allUIDKeys hroot hr)

/-! ## Claim C1 -/

/-- Claim C1 (confirmed): when the root identifier resolves in
`globalMapByUID`, the returned NodeMap holds exactly the root plus the
identifiers transitively reachable along `Dependents` edges (`Reach`),
each key mapping to its `globalMapByUID` entry, and the size of the
result is one (the root) plus the number of non-root keys — the
dependent count the source logs as `len(nodeMap)-1`. -/
theorem resolveDependents_c1 (extract : Nat → Node → Option RelationshipMap)
    (objects : List K8sObject) (root : UID) (ix : Nat)
    (h : alook (buildByUID objects) root = some ix) :
    (∀ u, u ∈ mkeys (resolveDependents extract objects root) ↔
      Reach (buildByUID objects) (finalArena extract objects) root u) ∧
    alook (resolveDependents extract objects root) root = some (some ix) ∧
    (∀ p ∈ resolveDependents extract objects root,
      p.2 = alook (buildByUID objects) p.1) ∧
    (resolveDependents extract objects root).length =
      ((mkeys (resolveDependents extract objects root)).filter
        (fun u => u ≠ root)).length + 1 := by
  have heq : resolveDependents extract objects root
      = resolveDependentsW id extract objects root := rfl
  simp only [heq]
  obtain ⟨hnd, hsound, hcompl⟩ :=
    resolveW_post id extract id_perm_mem id_perm_len h
  refine ⟨?_, ?_, ?_, ?_⟩
  · exact fun u => resolveW_mem_iff id_perm_mem id_perm_len h u
  · rw [resolveW_alook_of_reach id_perm_mem id_perm_len h Reach.root, h]
  · exact fun p hp => (hsound p hp).2
  · have hroot : root ∈ mkeys (resolveDependentsW id extract objects root) :=
      (resolveW_mem_iff id_perm_mem id_perm_len h root).mpr Reach.root
    have hlen := length_eq_filter_ne_succ hnd hroot
    have hml : (mkeys (resolveDependentsW id extract objects root)).length
        = (resolveDependentsW id extract objects root).length := List.length_map ..
    rw [← hml, hlen]

/-- Witness for C1: the Deployment/ReplicaSet/Pod scenario, root `D`. -/
theorem resolveDependents_c1_witness :
    alook (buildByUID demoObjects) "uid-d" = some 0 ∧
    ((∀ u, u ∈ mkeys (resolveDependents noExtract demoObjects "uid-d") ↔
      Reach (buildByUID demoObjects) (finalArena noExtract demoObjects) "uid-d" u) ∧
    alook (resolveDependents noExtract demoObjects "uid-d") "uid-d" = some (some 0) ∧
    (∀ p ∈ resolveDependents noExtract demoObjects "uid-d",
      p.2 = alook (buildByUID demoObjects) p.1) ∧
    (resolveDependents noExtract demoObjects "uid-d").length =
      ((mkeys (resolveDependents noExtract demoObjects "uid-d")).filter
        (fun u => u ≠ "uid-d")).length + 1) :=
  ⟨by decide, resolveDependents_c1 noExtract demoObjects "uid-d" 0 (by decide)⟩

/-! ## Claim C7 -/

/-- Claim C7 (confirmed): a root that is no identifier (or alias) of any
input object yields the empty NodeMap, and so does the empty input
collection; no failure occurs (the function is total). -/
theorem resolveDependents_c7 (extract : Nat → Node → Option RelationshipMap)
    (objects : List K8sObject) (root : UID) :
    (root ∉ allUIDKeys objects → resolveDependents extract objects root = []) ∧
    resolveDependents extract [] root = [] := by
  constructor
  · intro h
    have hn : alook (buildByUID objects) root = none :=
      (alook_eq_none_iff _ root).mpr (fun hm => h (mem_mkeys_buildByUID.mp hm))
    exact resolveW_none hn
  · exact resolveW_none (by rfl)

/-- Witness for C7 at a root absent from the demo collection. -/
theorem resolveDependents_c7_witness :
    "zzz" ∉ allUIDKeys demoObjects ∧
    ((("zzz" : UID) ∉ allUIDKeys demoObjects →
        resolveDependents noExtract demoObjects "zzz" = []) ∧
      resolveDependents noExtract [] "zzz" = []) :=
  ⟨by decide, resolveDependents_c7 noExtract demoObjects "zzz"⟩

/-! ## Claim C4 -/

/-- The input of the C4 counterexample: a single empty-group `"Node"`
object; resolving by its name alias puts the alias — which is not any
object's identifier — into the result as a key. -/
def c4Node : K8sObject := ⟨"u1", "", "Node", "", "n1", [], []⟩

/-- Claim C4 (counterexample): the result keyed by the name alias `"n1"`
contains a key that is not the identifier of any input object. -/
theorem resolveDependents_c4_counterexample :
    "n1" ∈ mkeys (resolveDependents noExtract [c4Node] "n1") ∧
    "n1" ∉ [c4Node].map K8sObject.uid := by
  constructor
  · decide
  · decide

/-- Claim C4 (amended): every key of the returned NodeMap is an
identifier *or a Node-kind name/hostname alias* of some object of the
input collection. -/
theorem resolveDependents_c4_amended (extract : Nat → Node → Option RelationshipMap)
    (objects : List K8sObject) (root : UID) :
    ∀ u ∈ mkeys (resolveDependents extract objects root), u ∈ allUIDKeys objects := by
  intro u hu
  cases h : alook (buildByUID objects) root with
  | none =>
      unfold resolveDependents at hu
      rw [resolveW_none h] at hu
      simp [mkeys] at hu
  | some ix =>
      have hr := (resolveW_mem_iff id_perm_mem id_perm_len h u).mp hu
      have hroot : root ∈ mkeys (buildByUID objects) :=
        (mem_mkeys_iff_alook _ root).mpr (by rw [h]; simp)
      exact reach_mem_allUIDKeys hroot hr

/-- Witness for the amended C4. -/
theorem resolveDependents_c4_amended_witness :
    "uid-r" ∈ mkeys (resolveDependents noExtract demoObjects "uid-d") ∧
    "uid-r" ∈ allUIDKeys demoObjects :=
  ⟨by decide,
    resolveDependents_c4_amended noExtract demoObjects "uid-d" "uid-r" (by decide)⟩

/-! ## Claim C9 -/

/-- Claim C9 (confirmed): the only iteration-order freedom in a single
resolution is the Go map iteration order; in the traversal it is the
enumeration order `π` of each node's `Dependents` map (the arena itself
does not depend on `π`).  Two resolutions of the same input and root
under any two orders agree on the key set and on every lookup — the
NodeMaps are logically identical, hence so are two identical
invocations. -/
theorem resolveDependents_c9 (extract : Nat → Node → Option RelationshipMap)
    (objects : List K8sObject) (root : UID) (π₁ π₂ : List UID → List UID)
    (h1m : ∀ l u, u ∈ π₁ l ↔ u ∈ l) (h1l : ∀ l, (π₁ l).length = l.length)
    (h2m : ∀ l u, u ∈ π₂ l ↔ u ∈ l) (h2l : ∀ l, (π₂ l).length = l.length) :
    (∀ u, u ∈ mkeys (resolveDependentsW π₁ extract objects root) ↔
      u ∈ mkeys (resolveDependentsW π₂ extract objects root)) ∧
    (∀ u, alook (resolveDependentsW π₁ extract objects root) u
      = alook (resolveDependentsW π₂ extract objects root) u) := by
  cases h : alook (buildByUID objects) root with
  | none =>
      rw [resolveW_none h, resolveW_none h]
      exact ⟨fun _ => Iff.rfl, fun _ => rfl⟩
  | some ix =>
      constructor
      · intro u
        rw [resolveW_mem_iff h1m h1l h u, resolveW_mem_iff h2m h2l h u]
      · intro u
        by_cases hr : Reach (buildByUID objects) (finalArena extract objects) root u
        · rw [resolveW_alook_of_reach h1m h1l h hr,
            resolveW_alook_of_reach h2m h2l h hr]
        · rw [resolveW_alook_of_not_reach h1m h1l h hr,
            resolveW_alook_of_not_reach h2m h2l h hr]

/-- Witness for C9: identity order against reversal. -/
theorem resolveDependents_c9_witness :
    ((∀ (l : List UID) (u : UID), u ∈ l.reverse ↔ u ∈ l) ∧
      (∀ l : List UID, l.reverse.length = l.length)) ∧
    ((∀ u, u ∈ mkeys (resolveDependentsW id noExtract demoObjects "uid-d") ↔
      u ∈ mkeys (resolveDependentsW List.reverse noExtract demoObjects "uid-d")) ∧
    (∀ u, alook (resolveDependentsW id noExtract demoObjects "uid-d") u
      = alook (resolveDependentsW List.reverse noExtract demoObjects "uid-d") u)) :=
  ⟨⟨fun _ _ => List.mem_reverse, fun l => List.length_reverse l⟩,
    resolveDependents_c9 noExtract demoObjects "uid-d" id List.reverse
      id_perm_mem id_perm_len (fun _ _ => List.mem_reverse)
      (fun l => List.length_reverse l)⟩

/-! ## Claim C8 -/

/-- Claim C8 (confirmed): in every returned NodeMap, (a) every stored
value is a real node — `some` arena position within bounds, never the
modelled nil pointer — and (b) every identifier in the `Dependents` map
of any included node is itself a key of the NodeMap.  Unresolvable
declared relationships are never stored (the edge-recording passes skip
them, cf. `ownerRefStep`/`updateRelationships`), which is why (a) holds. -/
theorem resolveDependents_c8 (extract : Nat → Node → Option RelationshipMap)
    (objects : List K8sObject) (root : UID) :
    (∀ p ∈ resolveDependents extract objects root,
      ∃ ix, p.2 = some ix ∧ ix < (finalArena extract objects).length) ∧
    (∀ p ∈ resolveDependents extract objects root, ∀ ix, p.2 = some ix →
      ∀ d ∈ depKeysAt (finalArena extract objects) ix,
        d ∈ mkeys (resolveDependents extract objects root)) := by
  cases h : alook (buildByUID objects) root with
  | none =>
      unfold resolveDependents
      rw [resolveW_none h]
      exact ⟨fun p hp => absurd hp (List.not_mem_nil p), fun p hp => absurd hp (List.not_mem_nil p)⟩
  | some ix0 =>
      obtain ⟨hnd, hsound, hcompl⟩ :=
        resolveW_post id extract id_perm_mem id_perm_len h
      have hroot : root ∈ mkeys (buildByUID objects) :=
        (mem_mkeys_iff_alook _ root).mpr (by rw [h]; simp)
      constructor
      · intro p hp
        obtain ⟨hr, hval⟩ := hsound p hp
        have hk := reach_mem_mkeys_byUID hroot hr
        obtain ⟨v, hv⟩ := alook_isSome_of_mem_mkeys hk
        refine ⟨v, by rw [hval, hv], ?_⟩
        rw [finalArena_length]
        exact alook_buildByUID_lt hv
      · intro p hp ix hpix d hd
        obtain ⟨hr, hval⟩ := hsound p hp
        have hux : alook (buildByUID objects) p.1 = some ix := by
          rw [← hval, hpix]
        rw [depKeysAt_eq] at hd
        cases hn : nth (finalArena extract objects) ix with
        | none =>
            rw [hn] at hd
            simp at hd
        | some node =>
            rw [hn] at hd
            have hd' : d ∈ mkeys node.dependents := hd
            exact hcompl d (Reach.step hr hux hn hd')

/-- Witness for C8 on the demo scenario. -/
theorem resolveDependents_c8_witness :
    (("uid-d", some 0) ∈ resolveDependents noExtract demoObjects "uid-d" ∧
      (some 0 : Option Nat) = some 0 ∧
      "uid-r" ∈ depKeysAt (finalArena noExtract demoObjects) 0) ∧
    ((∃ ix, (("uid-d", some 0) : UID × Option Nat).2 = some ix ∧
        ix < (finalArena noExtract demoObjects).length) ∧
      "uid-r" ∈ mkeys (resolveDependents noExtract demoObjects "uid-d")) :=
  ⟨⟨by decide, rfl, by decide⟩,
    ⟨(resolveDependents_c8 noExtract demoObjects "uid-d").1 ("uid-d", some 0) (by decide),
      (resolveDependents_c8 noExtract demoObjects "uid-d").2 ("uid-d", some 0)
        (by decide) 0 rfl "uid-r" (by decide)⟩⟩

/-! ## Claim C2 -/

/-- C2 counterexample input: a Deployment `c2A` (uid `"x"`) and a
Node-kind object `c2B` (uid `"y"`) whose *name* is `"x"`; each names the
other's identifier in its owner references. -/
def c2A : K8sObject := ⟨"x", "apps", "Deployment", "ns", "A", [], [⟨"y", none⟩]⟩

def c2B : K8sObject := ⟨"y", "", "Node", "", "x", [], [⟨"x", none⟩]⟩

/-- Claim C2 (counterexample): the two objects form an owner-reference
cycle, yet resolving A's identifier does not return the nodes of A and B:
B's name alias `"x"` overwrites A's entry in `globalMapByUID`, so the
result maps both keys to B's node (arena position 1) and A's node
(position 0) is absent entirely. -/
theorem resolveDependents_c2_counterexample :
    ("y" ∈ c2A.ownerReferences.map OwnerReference.uid ∧
      "x" ∈ c2B.ownerReferences.map OwnerReference.uid ∧
      c2A.uid = "x" ∧ c2B.uid = "y") ∧
    alook (resolveDependents noExtract [c2A, c2B] "x") "x" = some (some 1) ∧
    (∀ p ∈ resolveDependents noExtract [c2A, c2B] "x", p.2 ≠ some 0) := by
  refine ⟨⟨?_, ?_, ?_, ?_⟩, ?_, ?_⟩ <;> decide

/-- Claim C2 (amended): if additionally all identifiers and Node-kind
aliases of the two objects are pairwise distinct (no alias shadowing),
then resolving A's identifier over the two-object cycle terminates (the
model is a total function, with provably sufficient fuel) and returns
exactly the nodes of A and B, for every extractor table. -/
theorem resolveDependents_c2_amended (extract : Nat → Node → Option RelationshipMap)
    (A B : K8sObject) (hWF : (allUIDKeys [A, B]).Nodup)
    (hA : ∃ ref ∈ A.ownerReferences, ref.uid = B.uid)
    (hB : ∃ ref ∈ B.ownerReferences, ref.uid = A.uid) :
    (∀ u, u ∈ mkeys (resolveDependents extract [A, B] A.uid) ↔
      (u = A.uid ∨ u = B.uid)) ∧
    alook (resolveDependents extract [A, B] A.uid) A.uid = some (some 0) ∧
    alook (resolveDependents extract [A, B] A.uid) B.uid = some (some 1) := by
  have heq : resolveDependents extract [A, B] A.uid
      = resolveDependentsW id extract [A, B] A.uid := rfl
  have hA0 : alook (buildByUID [A, B]) A.uid = some 0 :=
    alook_buildByUID_pos hWF (by rfl) (List.mem_cons_self ..)
  have hB1 : alook (buildByUID [A, B]) B.uid = some 1 :=
    alook_buildByUID_pos hWF (by rfl) (List.mem_cons_self ..)
  obtain ⟨refB, hrefB, hrefBuid⟩ := hB
  have hlen2 : (buildArena [A, B]).length = 2 := rfl
  have hcontrib : OwnerContrib (buildByUID [A, B]) (buildArena [A, B])
      (B.uid, 1) 0 B.uid RelationshipOwnerRef := by
    refine ⟨mkNode B, by rfl, rfl, refB, hrefB, ?_, ?_, Or.inl rfl⟩
    · rw [hrefBuid]
      exact hA0
    · rw [hlen2]
      exact Nat.zero_lt_succ 1
  have hOwner : RelationshipOwnerRef ∈
      relsAt (ownerPass (buildByUID [A, B]) (buildArena [A, B])) 0 B.uid :=
    mem_relsAt_ownerPass_iff.mpr (Or.inr ⟨(B.uid, 1), alook_mem hB1, hcontrib⟩)
  have hOwnerF : RelationshipOwnerRef ∈ relsAt (finalArena extract [A, B]) 0 B.uid := by
    unfold finalArena
    exact (grows_extractPass extract (buildByUID [A, B]) (buildByKey [A, B]) _).1
      0 B.uid _ hOwner
  have hdepB : B.uid ∈ depKeysAt (finalArena extract [A, B]) 0 :=
    mem_depKeysAt_of_rel hOwnerF
  have hReachB : Reach (buildByUID [A, B]) (finalArena extract [A, B]) A.uid B.uid := by
    rw [depKeysAt_eq] at hdepB
    cases hn : nth (finalArena extract [A, B]) 0 with
    | none =>
        rw [hn] at hdepB
        simp at hdepB
    | some node =>
        rw [hn] at hdepB
        exact Reach.step Reach.root hA0 hn hdepB
  have hsub : ∀ u, Reach (buildByUID [A, B]) (finalArena extract [A, B]) A.uid u →
      u = A.uid ∨ u = B.uid := by
    intro u hr
    cases hr with
    | root => exact Or.inl rfl
    | @step u' v ix node h1 hux hnx hd =>
        have hdep : u ∈ depKeysAt (finalArena extract [A, B]) ix := by
          rw [depKeysAt_eq, hnx]
          exact hd
        have hmap := depsIn_finalArena extract [A, B] ix u hdep
        simpa using hmap
  refine ⟨?_, ?_, ?_⟩
  · intro u
    rw [heq, resolveW_mem_iff id_perm_mem id_perm_len hA0 u]
    constructor
    · exact hsub u
    · rintro (h1 | h1)
      · exact h1 ▸ Reach.root
      · exact h1 ▸ hReachB
  · rw [heq, resolveW_alook_of_reach id_perm_mem id_perm_len hA0 Reach.root, hA0]
  · rw [heq, resolveW_alook_of_reach id_perm_mem id_perm_len hA0 hReachB, hB1]

/-- Witness for the amended C2: a two-object ConfigMap cycle. -/
def cycA : K8sObject := ⟨"a", "", "ConfigMap", "ns", "A", [], [⟨"b", none⟩]⟩

def cycB : K8sObject := ⟨"b", "", "ConfigMap", "ns", "B", [], [⟨"a", none⟩]⟩

theorem resolveDependents_c2_amended_witness :
    ((allUIDKeys [cycA, cycB]).Nodup ∧
      (∃ ref ∈ cycA.ownerReferences, ref.uid = cycB.uid) ∧
      (∃ ref ∈ cycB.ownerReferences, ref.uid = cycA.uid)) ∧
    ((∀ u, u ∈ mkeys (resolveDependents noExtract [cycA, cycB] cycA.uid) ↔
      (u = cycA.uid ∨ u = cycB.uid)) ∧
    alook (resolveDependents noExtract [cycA, cycB] cycA.uid) cycA.uid = some (some 0) ∧
    alook (resolveDependents noExtract [cycA, cycB] cycA.uid) cycB.uid = some (some 1)) :=
  ⟨⟨by decide, by decide, by decide⟩,
    resolveDependents_c2_amended noExtract cycA cycB (by decide) (by decide) (by decide)⟩

/-! ## Claim C10 -/

/-- C10 counterexample input: two empty-group Node objects sharing the
name `"n"`. -/
def c10a : K8sObject := ⟨"u1", "", "Node", "", "n", [], []⟩

def c10b : K8sObject := ⟨"u2", "", "Node", "", "n", [], []⟩

/-- Claim C10 (counterexample): resolving by `c10a`'s name does not
resolve to `c10a`'s node — the later object's identical alias overwrote
the index entry, so the alias key maps to `c10b`'s node (position 1, uid
`"u2"`) and `c10a`'s node never appears. -/
theorem resolveDependents_c10_counterexample :
    (c10a.group = "" ∧ c10a.kind = "Node" ∧ c10a.name = "n" ∧
      nth [c10a, c10b] 0 = some c10a) ∧
    alook (resolveDependents noExtract [c10a, c10b] "n") "n" = some (some 1) ∧
    ((nth (finalArena noExtract [c10a, c10b]) 1).map Node.uid = some "u2" ∧
      c10a.uid = "u1" ∧
      (∀ p ∈ resolveDependents noExtract [c10a, c10b] "n", p.2 ≠ some 0)) := by
  refine ⟨⟨?_, ?_, ?_, ?_⟩, ?_, ?_, ?_, ?_⟩ <;> decide

/-- Claim C10 (amended): when all identifiers and Node-kind aliases of
the input are pairwise distinct, resolving with a Node object's name or
hostname-label alias as root yields a non-empty NodeMap that holds that
object's node under the alias key and contains every identifier
transitively reachable from it, although the alias is no object's
identifier. -/
theorem resolveDependents_c10_amended (extract : Nat → Node → Option RelationshipMap)
    (objects : List K8sObject) (i : Nat) (o : K8sObject) (a : String)
    (hWF : (allUIDKeys objects).Nodup) (hio : nth objects i = some o)
    (hg : o.group = "") (hk : o.kind = "Node") (ha : a ∈ aliasKeys o) :
    resolveDependents extract objects a ≠ [] ∧
    alook (resolveDependents extract objects a) a = some (some i) ∧
    (nth (finalArena extract objects) i).map nodeCore = some o ∧
    (∀ u, Reach (buildByUID objects) (finalArena extract objects) a u →
      u ∈ mkeys (resolveDependents extract objects a)) := by
  have heq : resolveDependents extract objects a
      = resolveDependentsW id extract objects a := rfl
  have hres : alook (buildByUID objects) a = some i :=
    alook_buildByUID_pos hWF hio (List.mem_cons_of_mem _ ha)
  have halook : alook (resolveDependents extract objects a) a = some (some i) := by
    rw [heq, resolveW_alook_of_reach id_perm_mem id_perm_len hres Reach.root, hres]
  refine ⟨?_, halook, ?_, ?_⟩
  · intro hnil
    rw [hnil] at halook
    exact Option.noConfusion halook
  · have hce : CoreEq (buildArena objects) (finalArena extract objects) := by
      unfold finalArena
      exact coreEq_trans
        (coreEq_of_grows (grows_ownerPass (buildByUID objects) (buildArena objects)))
        (coreEq_of_grows (grows_extractPass extract (buildByUID objects)
          (buildByKey objects) _))
    rw [hce.2 i]
    unfold buildArena
    rw [nth_map, hio]
    rfl
  · intro u hr
    rw [heq]
    exact (resolveW_post id extract id_perm_mem id_perm_len hres).2.2 u hr

/-- Witness input for the amended C10: a Node object with a hostname
label, resolved by the hostname alias. -/
def c10w : K8sObject := ⟨"u9", "", "Node", "", "n9", [("kubernetes.io/hostname", "h9")], []⟩

theorem resolveDependents_c10_amended_witness :
    ((allUIDKeys [c10w]).Nodup ∧ nth [c10w] 0 = some c10w ∧
      c10w.group = "" ∧ c10w.kind = "Node" ∧ "h9" ∈ aliasKeys c10w) ∧
    (resolveDependents noExtract [c10w] "h9" ≠ [] ∧
    alook (resolveDependents noExtract [c10w] "h9") "h9" = some (some 0) ∧
    (nth (finalArena noExtract [c10w]) 0).map nodeCore = some c10w ∧
    (∀ u, Reach (buildByUID [c10w]) (finalArena noExtract [c10w]) "h9" u →
      u ∈ mkeys (resolveDependents noExtract [c10w] "h9"))) :=
  ⟨⟨by decide, by decide, by decide, by decide, by decide⟩,
    resolveDependents_c10_amended noExtract [c10w] 0 c10w "h9"
      (by decide) (by decide) (by decide) (by decide) (by decide)⟩

/-! ## Claim C3 -/

theorem nodup_uids {objects : List K8sObject} (h : (allUIDKeys objects).Nodup) :
    (objects.map K8sObject.uid).Nodup := by
  induction objects with
  | nil => simp
  | cons o rest ih =>
      unfold allUIDKeys at h
      rw [List.flatMap_cons, List.nodup_append] at h
      obtain ⟨h1, h2, hdisj⟩ := h
      rw [List.map_cons, List.nodup_cons]
      refine ⟨?_, ih h2⟩
      intro hmem
      obtain ⟨o', ho', huid⟩ := List.mem_map.mp hmem
      exact hdisj (List.mem_cons_self ..)
        (List.mem_flatMap.mpr ⟨o', ho', huid ▸ List.mem_cons_self ..⟩)

theorem uid_index_unique :
    ∀ {objects : List K8sObject}, (objects.map K8sObject.uid).Nodup →
    ∀ {i ix : Nat} {A o : K8sObject}, nth objects i = some A → nth objects ix = some o →
    o.uid = A.uid → ix = i := by
  intro objects
  induction objects with
  | nil =>
      intro _ i ix A o hi
      simp [nth] at hi
  | cons o0 rest ih =>
      intro hnd i ix A o hi hix huid
      rw [List.map_cons, List.nodup_cons] at hnd
      cases i with
      | zero =>
          cases ix with
          | zero => rfl
          | succ ix' =>
              exfalso
              have hA : A = o0 := by
                injection hi with hh
                exact hh.symm
              have ho : nth rest ix' = some o := by simpa [nth] using hix
              refine hnd.1 ?_
              rw [← hA, ← huid]
              exact List.mem_map_of_mem K8sObject.uid (nth_mem ho)
      | succ i' =>
          cases ix with
          | zero =>
              exfalso
              have ho : o = o0 := by
                injection hix with hh
                exact hh.symm
              have hArest : nth rest i' = some A := by simpa [nth] using hi
              refine hnd.1 ?_
              rw [← ho, huid]
              exact List.mem_map_of_mem K8sObject.uid (nth_mem hArest)
          | succ ix' =>
              have hi' : nth rest i' = some A := by simpa [nth] using hi
              have hix' : nth rest ix' = some o := by simpa [nth] using hix
              rw [ih hnd.2 hi' hix' huid]

theorem relsAt_buildArena (objects : List K8sObject) (j : Nat) (u : UID) :
    relsAt (buildArena objects) j u = [] := by
  rw [relsAt_eq]
  unfold buildArena
  rw [nth_map]
  cases nth objects j <;> simp [mkNode, alook]

/-- Claim C3 (confirmed): owner-reference materialization.  "Names B's
identifier" is formalized as "the reference's UID resolves in
`globalMapByUID` to B's position" (the index's identifiers include the
spec's Node aliases).  (1) A controller reference to B records both
`OwnerRef` and `ControllerRef` on B's dependents entry for A, under any
extractor table.  (2) If every reference of A resolving to B is
non-controller (and at least one resolves), then with no extractor
contributions B's entry for A holds exactly `OwnerRef`.  (3) A reference
whose UID does not resolve records nothing — the per-reference step
leaves the arena unchanged — and no error exists (total function). -/
theorem resolveDependents_c3 (objects : List K8sObject)
    (hWF : (allUIDKeys objects).Nodup) (iA iB : Nat) (A B : K8sObject)
    (hA : nth objects iA = some A) (hB : nth objects iB = some B) :
    (∀ (extract : Nat → Node → Option RelationshipMap) (ref : OwnerReference),
      ref ∈ A.ownerReferences → alook (buildByUID objects) ref.uid = some iB →
      ref.controller = some true →
      RelationshipOwnerRef ∈ relsAt (finalArena extract objects) iB A.uid ∧
      RelationshipControllerRef ∈ relsAt (finalArena extract objects) iB A.uid) ∧
    ((∃ ref ∈ A.ownerReferences, alook (buildByUID objects) ref.uid = some iB) →
     (∀ ref ∈ A.ownerReferences, alook (buildByUID objects) ref.uid = some iB →
        ref.controller ≠ some true) →
     (∀ r, r ∈ relsAt (finalArena noExtract objects) iB A.uid ↔
        r = RelationshipOwnerRef)) ∧
    (∀ (nodeUID : UID) (arena : List Node) (ref : OwnerReference),
      alook (buildByUID objects) ref.uid = none →
      ownerRefStep (buildByUID objects) nodeUID arena ref = arena) := by
  have hA0 : alook (buildByUID objects) A.uid = some iA :=
    alook_buildByUID_pos hWF hA (List.mem_cons_self ..)
  have hnthA : nth (buildArena objects) iA = some (mkNode A) := by
    unfold buildArena
    rw [nth_map, hA]
    rfl
  have hcontribOf : ∀ (ref : OwnerReference), ref ∈ A.ownerReferences →
      alook (buildByUID objects) ref.uid = some iB →
      ∀ r, (r = RelationshipOwnerRef ∨
        (r = RelationshipControllerRef ∧ ref.controller = some true)) →
      OwnerContrib (buildByUID objects) (buildArena objects) (A.uid, iA) iB A.uid r := by
    intro ref href hres r hlab
    refine ⟨mkNode A, hnthA, rfl, ref, href, hres, ?_, hlab⟩
    have := alook_buildByUID_lt hres
    unfold buildArena
    rw [List.length_map]
    exact this
  refine ⟨?_, ?_, ?_⟩
  · intro extract ref href hres hctl
    have hgrow := (grows_extractPass extract (buildByUID objects) (buildByKey objects)
      (ownerPass (buildByUID objects) (buildArena objects))).1
    constructor
    · have hmem : RelationshipOwnerRef ∈
          relsAt (ownerPass (buildByUID objects) (buildArena objects)) iB A.uid :=
        mem_relsAt_ownerPass_iff.mpr (Or.inr ⟨(A.uid, iA), alook_mem hA0,
          hcontribOf ref href hres _ (Or.inl rfl)⟩)
      unfold finalArena
      exact hgrow iB A.uid _ hmem
    · have hmem : RelationshipControllerRef ∈
          relsAt (ownerPass (buildByUID objects) (buildArena objects)) iB A.uid :=
        mem_relsAt_ownerPass_iff.mpr (Or.inr ⟨(A.uid, iA), alook_mem hA0,
          hcontribOf ref href hres _ (Or.inr ⟨rfl, hctl⟩)⟩)
      unfold finalArena
      exact hgrow iB A.uid _ hmem
  · rintro ⟨ref0, href0, hres0⟩ hnonctl r
    have hfin : finalArena noExtract objects
        = ownerPass (buildByUID objects) (buildArena objects) := by
      unfold finalArena
      rw [extractPass_noExtract]
    rw [hfin, mem_relsAt_ownerPass_iff, relsAt_buildArena]
    constructor
    · rintro (hmem | ⟨p, hp, node, hnth, huid, ref, href, hres, hlt, hlab⟩)
      · simp at hmem
      · have hrange : p.2 < objects.length := by
          have := buildByUID_val_lt hp
          exact this
        obtain ⟨o', ho'⟩ := (nth_eq_some_iff objects p.2).mpr hrange
        have hnode : node = mkNode o' := by
          unfold buildArena at hnth
          rw [nth_map, ho'] at hnth
          injection hnth with hh
          exact hh.symm
        have houid : o'.uid = A.uid := by
          rw [hnode] at huid
          exact huid.symm
        have hpix : p.2 = iA := uid_index_unique (nodup_uids hWF) hA ho' houid
        have ho'A : o' = A := by
          rw [hpix] at ho'
          rw [hA] at ho'
          injection ho' with hh
          exact hh.symm
        have hrefA : ref ∈ A.ownerReferences := by
          rw [← ho'A]
          have : node.ownerReferences = o'.ownerReferences := by
            rw [hnode]
            rfl
          rw [← this]
          exact href
        rcases hlab with h1 | ⟨h1, h2⟩
        · exact h1
        · exact absurd h2 (hnonctl ref hrefA hres)
    · intro hr
      subst hr
      exact Or.inr ⟨(A.uid, iA), alook_mem hA0,
        hcontribOf ref0 href0 hres0 _ (Or.inl rfl)⟩
  · intro nodeUID arena ref h
    unfold ownerRefStep
    rw [h]

/-- Witness for C3: in the demo scenario the ReplicaSet (position 1) has
a controller owner reference resolving to the Deployment (position 0). -/
theorem resolveDependents_c3_witness :
    ((allUIDKeys demoObjects).Nodup ∧ nth demoObjects 1 = some objR ∧
      nth demoObjects 0 = some objD) ∧
    ((∀ (extract : Nat → Node → Option RelationshipMap) (ref : OwnerReference),
      ref ∈ objR.ownerReferences → alook (buildByUID demoObjects) ref.uid = some 0 →
      ref.controller = some true →
      RelationshipOwnerRef ∈ relsAt (finalArena extract demoObjects) 0 objR.uid ∧
      RelationshipControllerRef ∈ relsAt (finalArena extract demoObjects) 0 objR.uid) ∧
    ((∃ ref ∈ objR.ownerReferences, alook (buildByUID demoObjects) ref.uid = some 0) →
     (∀ ref ∈ objR.ownerReferences, alook (buildByUID demoObjects) ref.uid = some 0 →
        ref.controller ≠ some true) →
     (∀ r, r ∈ relsAt (finalArena noExtract demoObjects) 0 objR.uid ↔
        r = RelationshipOwnerRef)) ∧
    (∀ (nodeUID : UID) (arena : List Node) (ref : OwnerReference),
      alook (buildByUID demoObjects) ref.uid = none →
      ownerRefStep (buildByUID demoObjects) nodeUID arena ref = arena)) :=
  ⟨⟨by decide, by decide, by decide⟩,
    resolveDependents_c3 demoObjects (by decide) 1 0 objR objD (by decide) (by decide)⟩

/-! ## Claim C6: per-loop accumulation lemmas -/

theorem addRelsFold_hit {nodeUID : UID} {rels : List Rel} {j : Nat} {r : Rel}
    (hr : r ∈ rels) :
    ∀ (js : List Nat) (b : List Node), j ∈ js → j < b.length →
    r ∈ relsAt (js.foldl (fun ar2 j' => addRels j' nodeUID rels ar2) b) j nodeUID := by
  intro js
  induction js with
  | nil =>
      intro b hj
      simp at hj
  | cons j0 rest ih =>
      intro b hj hjb
      rw [List.foldl_cons]
      rcases List.mem_cons.mp hj with h1 | h1
      · subst h1
        have hmem : r ∈ relsAt (addRels j nodeUID rels b) j nodeUID :=
          mem_relsAt_addRels hr hjb
        exact (foldl_rel grows_refl (fun _ _ _ => grows_trans)
          (fun a j' => grows_addRels j' nodeUID rels a) rest _).1 j nodeUID r hmem
      · have hlen : j < (addRels j0 nodeUID rels b).length := by
          rw [(grows_addRels j0 nodeUID rels b).2.1]
          exact hjb
        exact ih _ h1 hlen

theorem depsByRefFold_hit {byKey : List (String × Nat)} {nodeUID : UID}
    {l : List (ObjectReferenceKey × List Rel)} {p : ObjectReferenceKey × List Rel}
    (hp : p ∈ l) {j : Nat} (hj : alook byKey p.1 = some j) {r : Rel} (hr : r ∈ p.2) :
    ∀ (b : List Node), j < b.length →
    r ∈ relsAt (depsByRefFold byKey nodeUID l b) j nodeUID := by
  induction l with
  | nil => simp at hp
  | cons q rest ih =>
      intro b hjb
      have hunf : depsByRefFold byKey nodeUID (q :: rest) b
          = depsByRefFold byKey nodeUID rest (match alook byKey q.1 with
            | some j' => addRels j' nodeUID q.2 b
            | none => b) := rfl
      rw [hunf]
      rcases List.mem_cons.mp hp with h1 | h1
      · subst h1
        rw [hj]
        exact (grows_depsByRefFold byKey nodeUID rest _).1 j nodeUID r
          (mem_relsAt_addRels hr hjb)
      · have hstep : Grows b (match alook byKey q.1 with
            | some j' => addRels j' nodeUID q.2 b
            | none => b) := by
          cases alook byKey q.1 with
          | none => exact grows_refl b
          | some j' => exact grows_addRels j' nodeUID q.2 b
        have hlen : j < (match alook byKey q.1 with
            | some j' => addRels j' nodeUID q.2 b
            | none => b).length := by
          rw [hstep.2.1]
          exact hjb
        exact ih h1 _ hlen

theorem depsByUIDFold_hit {byUID : List (String × Nat)} {nodeUID : UID}
    {l : List (UID × List Rel)} {p : UID × List Rel}
    (hp : p ∈ l) {j : Nat} (hj : alook byUID p.1 = some j) {r : Rel} (hr : r ∈ p.2) :
    ∀ (b : List Node), j < b.length →
    r ∈ relsAt (depsByUIDFold byUID nodeUID l b) j nodeUID := by
  induction l with
  | nil => simp at hp
  | cons q rest ih =>
      intro b hjb
      have hunf : depsByUIDFold byUID nodeUID (q :: rest) b
          = depsByUIDFold byUID nodeUID rest (match alook byUID q.1 with
            | some j' => addRels j' nodeUID q.2 b
            | none => b) := rfl
      rw [hunf]
      rcases List.mem_cons.mp hp with h1 | h1
      · subst h1
        rw [hj]
        exact (grows_depsByUIDFold byUID nodeUID rest _).1 j nodeUID r
          (mem_relsAt_addRels hr hjb)
      · have hstep : Grows b (match alook byUID q.1 with
            | some j' => addRels j' nodeUID q.2 b
            | none => b) := by
          cases alook byUID q.1 with
          | none => exact grows_refl b
          | some j' => exact grows_addRels j' nodeUID q.2 b
        have hlen : j < (match alook byUID q.1 with
            | some j' => addRels j' nodeUID q.2 b
            | none => b).length := by
          rw [hstep.2.1]
          exact hjb
        exact ih h1 _ hlen

theorem deptsByRefFold_hit {byKey : List (String × Nat)} {nodeIx : Nat}
    {l : List (ObjectReferenceKey × List Rel)} {p : ObjectReferenceKey × List Rel}
    (hp : p ∈ l) {j : Nat} (hj : alook byKey p.1 = some j) {r : Rel} (hr : r ∈ p.2)
    {arena0 : List Node} {n0 : Node} (hn0 : nth arena0 j = some n0)
    (hIx : nodeIx < arena0.length) :
    ∀ (b : List Node), CoreEq arena0 b →
    r ∈ relsAt (deptsByRefFold byKey nodeIx l b) nodeIx n0.uid := by
  induction l with
  | nil => simp at hp
  | cons q rest ih =>
      intro b hce
      have hunf : deptsByRefFold byKey nodeIx (q :: rest) b
          = deptsByRefFold byKey nodeIx rest (match alook byKey q.1 with
            | some j' =>
                match nth b j' with
                | some n => addRels nodeIx n.uid q.2 b
                | none => b
            | none => b) := rfl
      rw [hunf]
      have hstep : Grows b (match alook byKey q.1 with
          | some j' =>
              match nth b j' with
              | some n => addRels nodeIx n.uid q.2 b
              | none => b
          | none => b) := by
        cases alook byKey q.1 with
        | none => exact grows_refl b
        | some j' =>
            show Grows b (match nth b j' with
              | some n => addRels nodeIx n.uid q.2 b
              | none => b)
            cases nth b j' with
            | none => exact grows_refl b
            | some n => exact grows_addRels nodeIx n.uid q.2 b
      rcases List.mem_cons.mp hp with h1 | h1
      · subst h1
        rw [hj]
        obtain ⟨n, hn, hcn⟩ := coreEq_nth_rev hce hn0
        show r ∈ relsAt (deptsByRefFold byKey nodeIx rest
          (match nth b j with
            | some n => addRels nodeIx n.uid p.2 b
            | none => b)) nodeIx n0.uid
        rw [hn]
        have hIxb : nodeIx < b.length := by
          rw [hce.1]
          exact hIx
        have hmem : r ∈ relsAt (addRels nodeIx n.uid p.2 b) nodeIx n0.uid := by
          rw [← nodeCore_uid hcn]
          exact mem_relsAt_addRels hr hIxb
        exact (grows_deptsByRefFold byKey nodeIx rest _).1 nodeIx n0.uid r hmem
      · exact ih h1 _ (coreEq_trans hce (coreEq_of_grows hstep))

theorem deptsByUIDFold_hit {byUID : List (String × Nat)} {nodeIx : Nat}
    {l : List (UID × List Rel)} {p : UID × List Rel}
    (hp : p ∈ l) {j : Nat} (hj : alook byUID p.1 = some j) {r : Rel} (hr : r ∈ p.2)
    {arena0 : List Node} {n0 : Node} (hn0 : nth arena0 j = some n0)
    (hIx : nodeIx < arena0.length) :
    ∀ (b : List Node), CoreEq arena0 b →
    r ∈ relsAt (deptsByUIDFold byUID nodeIx l b) nodeIx n0.uid := by
  induction l with
  | nil => simp at hp
  | cons q rest ih =>
      intro b hce
      have hunf : deptsByUIDFold byUID nodeIx (q :: rest) b
          = deptsByUIDFold byUID nodeIx rest (match alook byUID q.1 with
            | some j' =>
                match nth b j' with
                | some n => addRels nodeIx n.uid q.2 b
                | none => b
            | none => b) := rfl
      rw [hunf]
      have hstep : Grows b (match alook byUID q.1 with
          | some j' =>
              match nth b j' with
              | some n => addRels nodeIx n.uid q.2 b
              | none => b
          | none => b) := by
        cases alook byUID q.1 with
        | none => exact grows_refl b
        | some j' =>
            show Grows b (match nth b j' with
              | some n => addRels nodeIx n.uid q.2 b
              | none => b)
            cases nth b j' with
            | none => exact grows_refl b
            | some n => exact grows_addRels nodeIx n.uid q.2 b
      rcases List.mem_cons.mp hp with h1 | h1
      · subst h1
        rw [hj]
        obtain ⟨n, hn, hcn⟩ := coreEq_nth_rev hce hn0
        show r ∈ relsAt (deptsByUIDFold byUID nodeIx rest
          (match nth b j with
            | some n => addRels nodeIx n.uid p.2 b
            | none => b)) nodeIx n0.uid
        rw [hn]
        have hIxb : nodeIx < b.length := by
          rw [hce.1]
          exact hIx
        have hmem : r ∈ relsAt (addRels nodeIx n.uid p.2 b) nodeIx n0.uid := by
          rw [← nodeCore_uid hcn]
          exact mem_relsAt_addRels hr hIxb
        exact (grows_deptsByUIDFold byUID nodeIx rest _).1 nodeIx n0.uid r hmem
      · exact ih h1 _ (coreEq_trans hce (coreEq_of_grows hstep))

theorem depsBySelFold_hit {byUID : List (String × Nat)}
    {olsMap : List (ObjectLabelSelectorKey × ObjectLabelSelector)} {nodeUID : UID}
    {l : List (ObjectLabelSelectorKey × List Rel)} {p : ObjectLabelSelectorKey × List Rel}
    (hp : p ∈ l) {ols : ObjectLabelSelector} (hols : alook olsMap p.1 = some ols)
    {arena0 : List Node} {j : Nat} (hj : j ∈ resolveSelectorToNodes byUID arena0 ols)
    {r : Rel} (hr : r ∈ p.2) :
    ∀ (b : List Node), CoreEq arena0 b →
    r ∈ relsAt (depsBySelFold byUID olsMap nodeUID l b) j nodeUID := by
  induction l with
  | nil => simp at hp
  | cons q rest ih =>
      intro b hce
      have hunf : depsBySelFold byUID olsMap nodeUID (q :: rest) b
          = depsBySelFold byUID olsMap nodeUID rest (match alook olsMap q.1 with
            | some ols' => (resolveSelectorToNodes byUID b ols').foldl
                (fun ar2 j' => addRels j' nodeUID q.2 ar2) b
            | none => b) := rfl
      rw [hunf]
      have hstep : Grows b (match alook olsMap q.1 with
          | some ols' => (resolveSelectorToNodes byUID b ols').foldl
              (fun ar2 j' => addRels j' nodeUID q.2 ar2) b
          | none => b) := by
        cases alook olsMap q.1 with
        | none => exact grows_refl b
        | some ols' =>
            exact foldl_rel grows_refl (fun _ _ _ => grows_trans)
              (fun a j' => grows_addRels j' nodeUID q.2 a) _ b
      rcases List.mem_cons.mp hp with h1 | h1
      · subst h1
        rw [hols]
        show r ∈ relsAt (depsBySelFold byUID olsMap nodeUID rest
          ((resolveSelectorToNodes byUID b ols).foldl
            (fun ar2 j' => addRels j' nodeUID p.2 ar2) b)) j nodeUID
        rw [resolveSelectorToNodes_congr byUID ols hce]
        have hjb : j < b.length := by
          rw [hce.1]
          exact mem_resolveSelectorToNodes hj
        exact (grows_depsBySelFold byUID olsMap nodeUID rest _).1 j nodeUID r
          (addRelsFold_hit hr _ b hj hjb)
      · exact ih h1 _ (coreEq_trans hce (coreEq_of_grows hstep))

theorem addRelsDeptsFold_hit {nodeIx : Nat} {rels : List Rel} {r : Rel} (hr : r ∈ rels)
    {arena0 : List Node} {j : Nat} {n0 : Node} (hn0 : nth arena0 j = some n0)
    (hIx : nodeIx < arena0.length) :
    ∀ (js : List Nat) (b : List Node), CoreEq arena0 b → j ∈ js →
    r ∈ relsAt (js.foldl (fun ar2 j' =>
      match nth ar2 j' with
      | some n => addRels nodeIx n.uid rels ar2
      | none => ar2) b) nodeIx n0.uid := by
  intro js
  induction js with
  | nil =>
      intro b _ hj
      simp at hj
  | cons j0 rest ih =>
      intro b hce hj
      rw [List.foldl_cons]
      have hstep : Grows b (match nth b j0 with
          | some n => addRels nodeIx n.uid rels b
          | none => b) := by
        cases nth b j0 with
        | none => exact grows_refl b
        | some n => exact grows_addRels nodeIx n.uid rels b
      rcases List.mem_cons.mp hj with h1 | h1
      · subst h1
        obtain ⟨n, hn, hcn⟩ := coreEq_nth_rev hce hn0
        rw [hn]
        have hIxb : nodeIx < b.length := by
          rw [hce.1]
          exact hIx
        have hmem : r ∈ relsAt (addRels nodeIx n.uid rels b) nodeIx n0.uid := by
          rw [← nodeCore_uid hcn]
          exact mem_relsAt_addRels hr hIxb
        refine (foldl_rel grows_refl (fun _ _ _ => grows_trans) (fun a j' => ?_)
          rest _).1 nodeIx n0.uid r hmem
        show Grows a (match nth a j' with
          | some n' => addRels nodeIx n'.uid rels a
          | none => a)
        cases nth a j' with
        | none => exact grows_refl a
        | some n' => exact grows_addRels nodeIx n'.uid rels a
      · exact ih _ (coreEq_trans hce (coreEq_of_grows hstep)) h1

theorem deptsBySelFold_hit {byUID : List (String × Nat)}
    {olsMap : List (ObjectLabelSelectorKey × ObjectLabelSelector)} {nodeIx : Nat}
    {l : List (ObjectLabelSelectorKey × List Rel)} {p : ObjectLabelSelectorKey × List Rel}
    (hp : p ∈ l) {ols : ObjectLabelSelector} (hols : alook olsMap p.1 = some ols)
    {arena0 : List Node} {j : Nat} (hj : j ∈ resolveSelectorToNodes byUID arena0 ols)
    {n0 : Node} (hn0 : nth arena0 j = some n0) (hIx : nodeIx < arena0.length)
    {r : Rel} (hr : r ∈ p.2) :
    ∀ (b : List Node), CoreEq arena0 b →
    r ∈ relsAt (deptsBySelFold byUID olsMap nodeIx l b) nodeIx n0.uid := by
  induction l with
  | nil => simp at hp
  | cons q rest ih =>
      intro b hce
      have hunf : deptsBySelFold byUID olsMap nodeIx (q :: rest) b
          = deptsBySelFold byUID olsMap nodeIx rest (match alook olsMap q.1 with
            | some ols' => (resolveSelectorToNodes byUID b ols').foldl
                (fun ar2 j' =>
                  match nth ar2 j' with
                  | some n => addRels nodeIx n.uid q.2 ar2
                  | none => ar2) b
            | none => b) := rfl
      rw [hunf]
      have hstep : Grows b (match alook olsMap q.1 with
          | some ols' => (resolveSelectorToNodes byUID b ols').foldl
              (fun ar2 j' =>
                match nth ar2 j' with
                | some n => addRels nodeIx n.uid q.2 ar2
                | none => ar2) b
          | none => b) := by
        cases alook olsMap q.1 with
        | none => exact grows_refl b
        | some ols' =>
            refine foldl_rel grows_refl (fun _ _ _ => grows_trans) (fun a j' => ?_) _ b
            show Grows a (match nth a j' with
              | some n => addRels nodeIx n.uid q.2 a
              | none => a)
            cases nth a j' with
            | none => exact grows_refl a
            | some n => exact grows_addRels nodeIx n.uid q.2 a
      rcases List.mem_cons.mp hp with h1 | h1
      · subst h1
        rw [hols]
        show r ∈ relsAt (deptsBySelFold byUID olsMap nodeIx rest
          ((resolveSelectorToNodes byUID b ols).foldl
            (fun ar2 j' =>
              match nth ar2 j' with
              | some n => addRels nodeIx n.uid p.2 ar2
              | none => ar2) b)) nodeIx n0.uid
        rw [resolveSelectorToNodes_congr byUID ols hce]
        exact (grows_deptsBySelFold byUID olsMap nodeIx rest _).1 nodeIx n0.uid r
          (addRelsDeptsFold_hit hr hn0 hIx _ b hce hj)
      · exact ih h1 _ (coreEq_trans hce (coreEq_of_grows hstep))

/-- Claim C6 (confirmed): merging a node's `RelationshipMap`.  Every
dependency declaration (by reference, identifier, or label selector)
whose address resolves against the global indices records the declaring
node (`nodeUID`) as a dependent of the *referenced* node — the reverse
edge; every dependent declaration that resolves records the referenced
node's UID as a dependent of the *declaring* node (`nodeIx`) — the
forward edge; in each case all declared relationship labels are carried.
The index-validity hypotheses state that the two indices address
positions inside the arena, which the built indices satisfy
(`buildByUID_val_lt`, `mem_buildByKeyAux_range`). -/
theorem updateRelationships_c6 (byUID byKey : List (String × Nat)) (nodeIx : Nat)
    (nodeUID : UID) (rmap : RelationshipMap) (arena : List Node)
    (hK : ∀ p ∈ byKey, p.2 < arena.length)
    (hV : ∀ p ∈ byUID, p.2 < arena.length)
    (hIx : nodeIx < arena.length) :
    (∀ p ∈ rmap.dependenciesByRef, ∀ j, alook byKey p.1 = some j →
      ∀ r ∈ p.2, r ∈ relsAt
        (updateRelationships byUID byKey nodeIx nodeUID rmap arena) j nodeUID) ∧
    (∀ p ∈ rmap.dependenciesByUID, ∀ j, alook byUID p.1 = some j →
      ∀ r ∈ p.2, r ∈ relsAt
        (updateRelationships byUID byKey nodeIx nodeUID rmap arena) j nodeUID) ∧
    (∀ p ∈ rmap.dependenciesByLabelSelector, ∀ ols,
      alook rmap.objectLabelSelectors p.1 = some ols →
      ∀ j ∈ resolveSelectorToNodes byUID arena ols,
      ∀ r ∈ p.2, r ∈ relsAt
        (updateRelationships byUID byKey nodeIx nodeUID rmap arena) j nodeUID) ∧
    (∀ p ∈ rmap.dependentsByRef, ∀ j n, alook byKey p.1 = some j →
      nth arena j = some n →
      ∀ r ∈ p.2, r ∈ relsAt
        (updateRelationships byUID byKey nodeIx nodeUID rmap arena) nodeIx n.uid) ∧
    (∀ p ∈ rmap.dependentsByUID, ∀ j n, alook byUID p.1 = some j →
      nth arena j = some n →
      ∀ r ∈ p.2, r ∈ relsAt
        (updateRelationships byUID byKey nodeIx nodeUID rmap arena) nodeIx n.uid) ∧
    (∀ p ∈ rmap.dependentsByLabelSelector, ∀ ols,
      alook rmap.objectLabelSelectors p.1 = some ols →
      ∀ j n, j ∈ resolveSelectorToNodes byUID arena ols → nth arena j = some n →
      ∀ r ∈ p.2, r ∈ relsAt
        (updateRelationships byUID byKey nodeIx nodeUID rmap arena) nodeIx n.uid) := by
  have g1 := grows_depsByRefFold byKey nodeUID rmap.dependenciesByRef arena
  have g2 := grows_deptsByRefFold byKey nodeIx rmap.dependentsByRef
    (depsByRefFold byKey nodeUID rmap.dependenciesByRef arena)
  have g3 := grows_depsBySelFold byUID rmap.objectLabelSelectors nodeUID
    rmap.dependenciesByLabelSelector
    (deptsByRefFold byKey nodeIx rmap.dependentsByRef
      (depsByRefFold byKey nodeUID rmap.dependenciesByRef arena))
  have g4 := grows_deptsBySelFold byUID rmap.objectLabelSelectors nodeIx
    rmap.dependentsByLabelSelector
    (depsBySelFold byUID rmap.objectLabelSelectors nodeUID
      rmap.dependenciesByLabelSelector
      (deptsByRefFold byKey nodeIx rmap.dependentsByRef
        (depsByRefFold byKey nodeUID rmap.dependenciesByRef arena)))
  have g5 := grows_depsByUIDFold byUID nodeUID rmap.dependenciesByUID
    (deptsBySelFold byUID rmap.objectLabelSelectors nodeIx
      rmap.dependentsByLabelSelector
      (depsBySelFold byUID rmap.objectLabelSelectors nodeUID
        rmap.dependenciesByLabelSelector
        (deptsByRefFold byKey nodeIx rmap.dependentsByRef
          (depsByRefFold byKey nodeUID rmap.dependenciesByRef arena))))
  have g6 := grows_deptsByUIDFold byUID nodeIx rmap.dependentsByUID
    (depsByUIDFold byUID nodeUID rmap.dependenciesByUID
      (deptsBySelFold byUID rmap.objectLabelSelectors nodeIx
        rmap.dependentsByLabelSelector
        (depsBySelFold byUID rmap.objectLabelSelectors nodeUID
          rmap.dependenciesByLabelSelector
          (deptsByRefFold byKey nodeIx rmap.dependentsByRef
            (depsByRefFold byKey nodeUID rmap.dependenciesByRef arena)))))
  have hce1 : CoreEq arena _ := coreEq_of_grows g1
  have hce2 : CoreEq arena _ := coreEq_trans hce1 (coreEq_of_grows g2)
  have hce3 : CoreEq arena _ := coreEq_trans hce2 (coreEq_of_grows g3)
  have hce4 : CoreEq arena _ := coreEq_trans hce3 (coreEq_of_grows g4)
  have hce5 : CoreEq arena _ := coreEq_trans hce4 (coreEq_of_grows g5)
  unfold updateRelationships
  refine ⟨?_, ?_, ?_, ?_, ?_, ?_⟩
  · intro p hp j hj r hr
    have hjl : j < arena.length := hK _ (alook_mem hj)
    exact g6.1 j nodeUID r (g5.1 j nodeUID r (g4.1 j nodeUID r (g3.1 j nodeUID r
      (g2.1 j nodeUID r (depsByRefFold_hit hp hj hr arena hjl)))))
  · intro p hp j hj r hr
    have hjl : j < (deptsBySelFold byUID rmap.objectLabelSelectors nodeIx
        rmap.dependentsByLabelSelector
        (depsBySelFold byUID rmap.objectLabelSelectors nodeUID
          rmap.dependenciesByLabelSelector
          (deptsByRefFold byKey nodeIx rmap.dependentsByRef
            (depsByRefFold byKey nodeUID rmap.dependenciesByRef arena)))).length := by
      rw [hce4.1]
      exact hV _ (alook_mem hj)
    exact g6.1 j nodeUID r (depsByUIDFold_hit hp hj hr _ hjl)
  · intro p hp ols hols j hj r hr
    exact g6.1 j nodeUID r (g5.1 j nodeUID r (g4.1 j nodeUID r
      (depsBySelFold_hit hp hols hj hr _ hce2)))
  · intro p hp j n hj hn r hr
    exact g6.1 nodeIx n.uid r (g5.1 nodeIx n.uid r (g4.1 nodeIx n.uid r
      (g3.1 nodeIx n.uid r (deptsByRefFold_hit hp hj hr hn hIx _ hce1))))
  · intro p hp j n hj hn r hr
    exact deptsByUIDFold_hit hp hj hr hn hIx _ hce5
  · intro p hp ols hols j n hj hn r hr
    exact g6.1 nodeIx n.uid r (g5.1 nodeIx n.uid r
      (deptsBySelFold_hit hp hols hj hn hIx hr _ hce3))

/-- Witness input for C6: two nodes, an index by UID and by key, and a
relationship map with one declaration of each directional kind. -/
def c6n0 : K8sObject := ⟨"t", "g", "K", "ns", "x", [("l", "v")], []⟩

def c6n1 : K8sObject := ⟨"s", "g", "K", "ns", "y", [], []⟩

def c6rmap : RelationshipMap :=
  ⟨[], [("k0", ["R1"])], [("t", ["R2"])], [], [("k0", ["R3"])], [("t", ["R4"])], []⟩

theorem updateRelationships_c6_witness :
    ((∀ p ∈ [(("k0" : String), 0)], p.2 < (buildArena [c6n0, c6n1]).length) ∧
      (∀ p ∈ [(("t" : String), 0), (("s" : String), 1)],
        p.2 < (buildArena [c6n0, c6n1]).length) ∧
      1 < (buildArena [c6n0, c6n1]).length) ∧
    ((∀ p ∈ c6rmap.dependenciesByRef, ∀ j, alook [("k0", 0)] p.1 = some j →
      ∀ r ∈ p.2, r ∈ relsAt
        (updateRelationships [("t", 0), ("s", 1)] [("k0", 0)] 1 "s" c6rmap
          (buildArena [c6n0, c6n1])) j "s") ∧
    (∀ p ∈ c6rmap.dependenciesByUID, ∀ j, alook [("t", 0), ("s", 1)] p.1 = some j →
      ∀ r ∈ p.2, r ∈ relsAt
        (updateRelationships [("t", 0), ("s", 1)] [("k0", 0)] 1 "s" c6rmap
          (buildArena [c6n0, c6n1])) j "s") ∧
    (∀ p ∈ c6rmap.dependenciesByLabelSelector, ∀ ols,
      alook c6rmap.objectLabelSelectors p.1 = some ols →
      ∀ j ∈ resolveSelectorToNodes [("t", 0), ("s", 1)] (buildArena [c6n0, c6n1]) ols,
      ∀ r ∈ p.2, r ∈ relsAt
        (updateRelationships [("t", 0), ("s", 1)] [("k0", 0)] 1 "s" c6rmap
          (buildArena [c6n0, c6n1])) j "s") ∧
    (∀ p ∈ c6rmap.dependentsByRef, ∀ j n, alook [("k0", 0)] p.1 = some j →
      nth (buildArena [c6n0, c6n1]) j = some n →
      ∀ r ∈ p.2, r ∈ relsAt
        (updateRelationships [("t", 0), ("s", 1)] [("k0", 0)] 1 "s" c6rmap
          (buildArena [c6n0, c6n1])) 1 n.uid) ∧
    (∀ p ∈ c6rmap.dependentsByUID, ∀ j n, alook [("t", 0), ("s", 1)] p.1 = some j →
      nth (buildArena [c6n0, c6n1]) j = some n →
      ∀ r ∈ p.2, r ∈ relsAt
        (updateRelationships [("t", 0), ("s", 1)] [("k0", 0)] 1 "s" c6rmap
          (buildArena [c6n0, c6n1])) 1 n.uid) ∧
    (∀ p ∈ c6rmap.dependentsByLabelSelector, ∀ ols,
      alook c6rmap.objectLabelSelectors p.1 = some ols →
      ∀ j n, j ∈ resolveSelectorToNodes [("t", 0), ("s", 1)]
        (buildArena [c6n0, c6n1]) ols →
      nth (buildArena [c6n0, c6n1]) j = some n →
      ∀ r ∈ p.2, r ∈ relsAt
        (updateRelationships [("t", 0), ("s", 1)] [("k0", 0)] 1 "s" c6rmap
          (buildArena [c6n0, c6n1])) 1 n.uid)) :=
  ⟨⟨by decide, by decide, by decide⟩,
    updateRelationships_c6 [("t", 0), ("s", 1)] [("k0", 0)] 1 "s" c6rmap
      (buildArena [c6n0, c6n1]) (by decide) (by decide) (by decide)⟩

end KubeLineage
